import Mathlib

set_option autoImplicit false
set_option maxRecDepth 8000

/-!
Verification of the Screen2Deck OCR/deck-building core.

Python strings are modelled as lists of Unicode code points (`List Char`);
Python `bytes` as `List Nat`.  Each definition in this file is a direct
translation of the function of the same name in the repository, with the
source file noted in its doc comment.
-/

namespace Screen2Deck

/-- A Python `str`, modelled as its list of code points. -/
abbrev PyStr := List Char

/-- Code points of a Lean string literal (used to write concrete `PyStr`s). -/
def pys (s : String) : PyStr := s.data

/-- The characters Python's `str.strip` / `str.split` treat as whitespace
(the ASCII whitespace set; the model's character repertoire has no other
whitespace). -/
def pyIsSpaceChar (c : Char) : Bool :=
  c = ' ' || c = '\t' || c = '\n' || c = '\r' || c = Char.ofNat 11 || c = Char.ofNat 12

/-- Python `str.strip()`: drop leading and trailing whitespace. -/
def pyStrip (s : PyStr) : PyStr :=
  ((s.dropWhile pyIsSpaceChar).reverse.dropWhile pyIsSpaceChar).reverse

def isAsciiDigit (c : Char) : Bool := '0' ≤ c && c ≤ '9'

/-- `str.isalpha` for a single character, over the modelled repertoire
(ASCII letters and the Latin-1 letters U+00C0–U+00FF minus ×, ÷). -/
def pyIsAlphaChar (c : Char) : Bool :=
  ('a' ≤ c && c ≤ 'z') || ('A' ≤ c && c ≤ 'Z') ||
    (0xC0 ≤ c.toNat && c.toNat ≤ 0xFF && c.toNat ≠ 0xD7 && c.toNat ≠ 0xF7)

/-- `str.lower` for a single character: ASCII `A`–`Z` and the Latin-1
uppercase letters `À`–`Þ` (U+00C0–U+00DE, excluding ×) map 32 code points up;
everything else in the modelled repertoire is unchanged. -/
def pyLowerChar (c : Char) : Char :=
  if 65 ≤ c.toNat ∧ c.toNat ≤ 90 then Char.ofNat (c.toNat + 32)
  else if 0xC0 ≤ c.toNat ∧ c.toNat ≤ 0xDE ∧ c.toNat ≠ 0xD7 then Char.ofNat (c.toNat + 32)
  else c

/-- Python `str.lower()`. -/
def pyLower (s : PyStr) : PyStr := s.map pyLowerChar

/-- Python `s.startswith(p)` (`p` a plain string). -/
def pyStartsWith : PyStr → PyStr → Bool
  | _, [] => true
  | [], _ :: _ => false
  | c :: s, d :: p => c = d && pyStartsWith s p

/-- Python `p in s` (substring containment). -/
def pyContains : PyStr → PyStr → Bool
  | [], p => p.isEmpty
  | c :: s, p => pyStartsWith (c :: s) p || pyContains s p

/-- Value of a nonempty ASCII digit string, as `int(...)` computes it. -/
def digitsToNat (ds : PyStr) : Nat := ds.foldl (fun n c => 10 * n + (c.toNat - 48)) 0

/-! ## Exporters (src/backend/app/exporters) -/

/-- `NormalizedCard` from src/backend/app/models.py (the `scryfall_id` field
never affects any exporter output and is omitted).  Quantities are the
nonnegative integers produced by the parser. -/
structure NormalizedCard where
  qty : Nat
  name : String
deriving DecidableEq, Repr

/-- `NormalizedDeck` from src/backend/app/models.py. -/
structure NormalizedDeck where
  main : List NormalizedCard
  side : List NormalizedCard
deriving DecidableEq, Repr

/-- One `f"{c.qty} {c.name}"` line. -/
def qtyNameLine (c : NormalizedCard) : String := toString c.qty ++ " " ++ c.name

/-- `export_mtga` from src/backend/app/exporters/mtga.py:
`lines = ["Deck"]`, the main entries, an empty line, `"Sideboard"`, the side
entries, joined with `"\n"`. -/
def export_mtga (deck : NormalizedDeck) : String :=
  String.intercalate "\n"
    (["Deck"] ++ deck.main.map qtyNameLine ++ [""] ++ ["Sideboard"] ++ deck.side.map qtyNameLine)

/-- `export_tappedout` from src/backend/app/exporters/tappedout.py:
main entries joined with `"\n"`, then `"\n\nSideboard\n"`, then side entries
joined with `"\n"`; every entry is rendered `f"{c.qty} {c.name}"`. -/
def export_tappedout (deck : NormalizedDeck) : String :=
  String.intercalate "\n" (deck.main.map qtyNameLine)
    ++ "\n\nSideboard\n" ++ String.intercalate "\n" (deck.side.map qtyNameLine)

/-- The normalized deck used by the spec's export fixture and by the golden
test `src/backend/tests/test_export_golden.py` (`SAMPLE_DECK`). -/
def fixtureDeck : NormalizedDeck :=
  { main := [⟨4, "Lightning Bolt"⟩, ⟨4, "Counterspell"⟩, ⟨2, "Teferi, Time Raveler"⟩,
             ⟨24, "Island"⟩, ⟨26, "Mountain"⟩]
    side := [⟨3, "Surgical Extraction"⟩, ⟨2, "Damping Sphere"⟩, ⟨2, "Pyroblast"⟩,
             ⟨4, "Relic of Progenitus"⟩, ⟨4, "Blood Moon"⟩] }

/-- C7: exporting the fixture deck in the Arena (mtga) format produces exactly
the text `Deck`, the five main lines as `<qty> <name>`, a blank line,
`Sideboard`, and the five side lines, character for character as the spec
fixture gives it. -/
theorem C7_export_mtga_fixture :
    export_mtga fixtureDeck =
      "Deck\n4 Lightning Bolt\n4 Counterspell\n2 Teferi, Time Raveler\n24 Island\n26 Mountain\n\nSideboard\n3 Surgical Extraction\n2 Damping Sphere\n2 Pyroblast\n4 Relic of Progenitus\n4 Blood Moon" := by
  decide

/-- C6: on the golden sample deck, `export_tappedout` renders every entry as
`<qty> <name>` (main lines, a blank line, the bare header `Sideboard`, side
lines); it does NOT produce the `<qty>x <name>` rendering that the claim and
the repository's own golden fixture `GOLDEN_TAPPEDOUT`
(src/backend/tests/test_export_golden.py) expect. -/
theorem C6_export_tappedout_divergence :
    export_tappedout fixtureDeck =
      "4 Lightning Bolt\n4 Counterspell\n2 Teferi, Time Raveler\n24 Island\n26 Mountain\n\nSideboard\n3 Surgical Extraction\n2 Damping Sphere\n2 Pyroblast\n4 Relic of Progenitus\n4 Blood Moon"
    ∧ export_tappedout fixtureDeck ≠
      "4x Lightning Bolt\n4x Counterspell\n2x Teferi, Time Raveler\n24x Island\n26x Mountain\n\nSideboard\n3x Surgical Extraction\n2x Damping Sphere\n2x Pyroblast\n4x Relic of Progenitus\n4x Blood Moon" := by
  constructor
  · decide
  · decide

/-! ## Job storage (src/backend/app/core/job_storage.py) -/

/-- A stored job record, the JSON object written by `JobStorage.create_job`.
`metadata`, `result` and `error` payloads are modelled as opaque JSON text. -/
structure Job where
  id : String
  state : String
  progress : Int
  created_at : String
  updated_at : String
  image_hash : Option String
  user_id : Option String
  metadata : String
  result : Option String
  error : Option String
deriving DecidableEq, Repr

/-- `JobStorage.update_job` (job_storage.py lines 153–202), applied to a job
record that exists: each argument that is not `None` overwrites the stored
field, `updated_at` is set to the current time, and the record is saved.
There is no guard on the current state. -/
def update_job (job : Job) (state : Option String) (progress : Option Int)
    (result : Option String) (error : Option String) (now : String) : Job :=
  let job := match state with | some s => { job with state := s } | none => job
  let job := match progress with | some p => { job with progress := p } | none => job
  let job := match result with | some r => { job with result := some r } | none => job
  let job := match error with | some e => { job with error := some e } | none => job
  { job with updated_at := now }

/-- The terminal job states named by the claim. -/
def terminalStates : List String := ["completed", "failed", "cancelled"]

/-- A concrete completed job record. -/
def completedJob : Job :=
  { id := "4f7a", state := "completed", progress := 100,
    created_at := "2025-01-01T00:00:00", updated_at := "2025-01-01T00:01:00",
    image_hash := some "ab12", user_id := none, metadata := "{}",
    result := some "{span-data}", error := none }

/-- C2 counterexample: a job in the terminal state `completed` is NOT immune
to updates — `update_job` with `state="processing"`, `progress=10` changes the
stored `state` and `progress` fields (well before any TTL question arises). -/
theorem C2_terminal_immutability_fails :
    completedJob.state ∈ terminalStates ∧
      update_job completedJob (some "processing") (some 10) none none
          "2025-01-01T00:02:00" ≠ completedJob := by
  constructor
  · decide
  · decide

/-- C2 (amended): `update_job` enforces no terminal-state immutability: for a
job in any terminal state, every provided field is overwritten as given and
`updated_at` is refreshed to the write time. -/
theorem C2_update_overwrites_terminal (job : Job) (s : String) (p : Int)
    (r e now : String) (hterm : job.state ∈ terminalStates) :
    (update_job job (some s) (some p) (some r) (some e) now).state = s ∧
      (update_job job (some s) (some p) (some r) (some e) now).progress = p ∧
      (update_job job (some s) (some p) (some r) (some e) now).result = some r ∧
      (update_job job (some s) (some p) (some r) (some e) now).error = some e ∧
      (update_job job (some s) (some p) (some r) (some e) now).updated_at = now := by
  refine ⟨rfl, rfl, rfl, rfl, rfl⟩

/-- Witness for `C2_update_overwrites_terminal` at a concrete terminal job. -/
theorem C2_update_overwrites_terminal_witness :
    (update_job completedJob (some "processing") (some 10) (some "{}") (some "boom")
        "2025-01-01T00:02:00").state = "processing" :=
  (C2_update_overwrites_terminal completedJob "processing" 10 "{}" "boom"
    "2025-01-01T00:02:00" (by decide)).1

/-! ## Circuit breaker (src/backend/app/core/circuit_breaker.py) -/

/-- `CircuitState` from circuit_breaker.py. -/
inductive CircuitState where
  | closed
  | «open»
  | half_open
deriving DecidableEq, Repr

/-- The mutable state of `VisionFallbackCircuitBreaker` (the fields touched by
`record_success` / `record_failure`; timestamps are abstract `Nat` ticks). -/
structure CircuitBreaker where
  failure_threshold : Nat
  state : CircuitState
  failure_count : Nat
  last_failure_time : Option Nat
  circuit_opened_at : Option Nat
deriving DecidableEq, Repr

/-- `VisionFallbackCircuitBreaker.record_success` (lines 138–145): from
`HALF_OPEN`, a successful Vision call closes the circuit and resets the
failure count; in other states it changes nothing. -/
def record_success (cb : CircuitBreaker) : CircuitBreaker :=
  if cb.state = CircuitState.half_open then
    { cb with state := CircuitState.closed, failure_count := 0 }
  else cb

/-- `VisionFallbackCircuitBreaker.record_failure` (lines 147–167): increment
the failure count and stamp the failure time; once the count reaches the
threshold, open the circuit (if not already open) and record `opened_at`. -/
def record_failure (cb : CircuitBreaker) (now : Nat) : CircuitBreaker :=
  let cb := { cb with failure_count := cb.failure_count + 1, last_failure_time := some now }
  if cb.failure_threshold ≤ cb.failure_count then
    if cb.state ≠ CircuitState.open then
      { cb with state := CircuitState.open, circuit_opened_at := some now }
    else cb
  else cb

/-- Record one failure per timestamp in the list, in order. -/
def recordFailures (cb : CircuitBreaker) : List Nat → CircuitBreaker
  | [] => cb
  | t :: ts => recordFailures (record_failure cb t) ts

/-- The breaker as `__init__` leaves it (state CLOSED, zero failures). -/
def initialBreaker (threshold : Nat) : CircuitBreaker :=
  { failure_threshold := threshold, state := CircuitState.closed,
    failure_count := 0, last_failure_time := none, circuit_opened_at := none }

/-- Appending one failure commutes with folding the earlier failures. -/
theorem recordFailures_append (l : List Nat) (t : Nat) :
    ∀ cb, recordFailures cb (l ++ [t]) = record_failure (recordFailures cb l) t := by
  induction l with
  | nil => intro cb; rfl
  | cons a l ih => intro cb; simpa [recordFailures] using ih (record_failure cb a)

/-- While the failure count stays strictly below the threshold, recorded
failures leave the circuit closed and just count up. -/
theorem recordFailures_closed (ts : List Nat) :
    ∀ cb : CircuitBreaker, cb.state = CircuitState.closed →
      cb.failure_count + ts.length < cb.failure_threshold →
      (recordFailures cb ts).state = CircuitState.closed ∧
        (recordFailures cb ts).failure_count = cb.failure_count + ts.length ∧
        (recordFailures cb ts).failure_threshold = cb.failure_threshold := by
  induction ts with
  | nil => intro cb hs _; exact ⟨hs, rfl, rfl⟩
  | cons t ts ih =>
    intro cb hs hlt
    simp only [List.length_cons] at hlt
    have hstep : record_failure cb t =
        { cb with
          failure_count := cb.failure_count + 1
          last_failure_time := some t } := by
      unfold record_failure
      have h : ¬ cb.failure_threshold ≤ cb.failure_count + 1 := by omega
      simp [h]
    obtain ⟨h1, h2, h3⟩ := ih (record_failure cb t) (by rw [hstep]; exact hs)
      (by rw [hstep]; simpa using by omega)
    refine ⟨by simpa [recordFailures] using h1, ?_,
      by rw [hstep] at h3; simpa [recordFailures, hstep] using h3⟩
    have h2' : (recordFailures cb (t :: ts)).failure_count = cb.failure_count + 1 + ts.length := by
      simpa [recordFailures, hstep] using h2
    simp only [List.length_cons]
    omega

/-- C8: from the closed state with failure count zero, exactly
`failure_threshold` consecutive failures (no intervening success) open the
circuit and record the opened-at time of the last failure; and from
`half_open` one success closes the circuit and resets the failure count. -/
theorem C8_circuit_breaker (n : Nat) (init : List Nat) (tlast : Nat)
    (hn : 1 ≤ n) (hlen : init.length = n - 1) :
    (recordFailures (initialBreaker n) (init ++ [tlast])).state = CircuitState.open ∧
      (recordFailures (initialBreaker n) (init ++ [tlast])).circuit_opened_at = some tlast ∧
      (∀ cb : CircuitBreaker, cb.state = CircuitState.half_open →
        (record_success cb).state = CircuitState.closed ∧
          (record_success cb).failure_count = 0) := by
  obtain ⟨hstate, hcount, hthr⟩ := recordFailures_closed init (initialBreaker n) rfl
    (by simp [initialBreaker]; omega)
  rw [recordFailures_append]
  set cb1 := recordFailures (initialBreaker n) init with hcb1
  have hopen : record_failure cb1 tlast =
      { cb1 with
        failure_count := cb1.failure_count + 1
        last_failure_time := some tlast
        state := CircuitState.open
        circuit_opened_at := some tlast } := by
    unfold record_failure
    have h1 : cb1.failure_threshold ≤ cb1.failure_count + 1 := by
      rw [hcount, hthr]; simp [initialBreaker]; omega
    have h2 : ¬ cb1.state = CircuitState.open := by rw [hstate]; decide
    simp [h1, h2]
  refine ⟨by rw [hopen], by rw [hopen], ?_⟩
  intro cb hs
  unfold record_success
  rw [hs]
  exact ⟨by simp, by simp⟩

/-- Witness for `C8_circuit_breaker`: with the default threshold 5 and five
failures at ticks 1–5, the circuit ends open with `opened_at = 5`. -/
theorem C8_circuit_breaker_witness :
    (recordFailures (initialBreaker 5) ([1, 2, 3, 4] ++ [5])).state = CircuitState.open ∧
      (recordFailures (initialBreaker 5) ([1, 2, 3, 4] ++ [5])).circuit_opened_at = some 5 :=
  ⟨(C8_circuit_breaker 5 [1, 2, 3, 4] 5 (by decide) (by decide)).1,
    (C8_circuit_breaker 5 [1, 2, 3, 4] 5 (by decide) (by decide)).2.1⟩

/-! ## Lands-miscount repair (src/tests/unit/test_mtgo_lands_bug.py)

The production `apply_mtgo_land_fix` lives in `app.business_rules`, which is
not part of the source tree; the rule's in-repo implementation is
`fix_mtgo_lands_count_bug` in src/tests/unit/test_mtgo_lands_bug.py, which we
translate here.  A deck is a pair of Python dicts mapping card name to count,
modelled as ordered association lists with dict semantics (lookup and update
act on the first occurrence of a key). -/

/-- A Python dict `str -> int` of card counts (insertion-ordered pairs). -/
abbrev CountMap := List (String × Nat)

/-- `d.get(k, 0)`. -/
def dictGet (d : CountMap) (k : String) : Nat :=
  match d with
  | [] => 0
  | (k', v) :: rest => if k' = k then v else dictGet rest k

/-- `d[k] = v` for a key already present (first occurrence updated); a missing
key is appended, as Python dicts do. -/
def dictSet (d : CountMap) (k : String) (v : Nat) : CountMap :=
  match d with
  | [] => [(k, v)]
  | (k', v') :: rest => if k' = k then (k', v) :: rest else (k', v') :: dictSet rest k v

/-- `sum(d.values())`. -/
def sumValues (d : CountMap) : Nat := (d.map Prod.snd).sum

/-- The deck dict `{"main": ..., "side": ...}`. -/
structure DictDeck where
  main : CountMap
  side : CountMap
deriving DecidableEq, Repr

/-- `basics` from `fix_mtgo_lands_count_bug`. -/
def basics : List String := ["Plains", "Island", "Swamp", "Mountain", "Forest"]

/-- First `some` value of `f` along a list (the early `return` of a Python
`for` loop). -/
def firstHit {α β : Type} (f : α → Option β) : List α → Option β
  | [] => none
  | x :: l =>
    match f x with
    | some b => some b
    | none => firstHit f l

/-- The nested `for land1 / for land2` search: the first basic with count 59
paired with the first different basic with count 1. -/
def findMiscountPair (main : CountMap) : Option (String × String) :=
  firstHit (fun land1 =>
    if dictGet main land1 = 59 then
      firstHit (fun land2 =>
        if land2 ≠ land1 ∧ dictGet main land2 = 1 then some (land1, land2) else none) basics
    else none) basics

/-- `fix_mtgo_lands_count_bug` (src/tests/unit/test_mtgo_lands_bug.py lines
4–31): if the main total is exactly 60 the deck is returned unchanged;
otherwise, if some basic land has count 59 and a different basic has count 1,
those two are rewritten to 20 and 4; otherwise the deck is unchanged. -/
def fix_mtgo_lands_count_bug (deck : DictDeck) : DictDeck :=
  if sumValues deck.main = 60 then deck
  else
    match findMiscountPair deck.main with
    | some (land1, land2) =>
        { deck with main := dictSet (dictSet deck.main land1 20) land2 4 }
    | none => deck

theorem dictGet_dictSet_self (d : CountMap) (k : String) (v : Nat) :
    dictGet (dictSet d k v) k = v := by
  induction d with
  | nil => simp [dictSet, dictGet]
  | cons p rest ih =>
    obtain ⟨k', v'⟩ := p
    by_cases h : k' = k <;> simp [dictSet, dictGet, h, ih]

theorem dictGet_dictSet_other (d : CountMap) (k k' : String) (v : Nat) (h : k' ≠ k) :
    dictGet (dictSet d k v) k' = dictGet d k' := by
  induction d with
  | nil =>
    have hne : ¬ k = k' := fun he => h he.symm
    simp [dictSet, dictGet, hne]
  | cons p rest ih =>
    obtain ⟨k0, v0⟩ := p
    by_cases h0 : k0 = k
    · have hkk : ¬ k = k' := fun he => h he.symm
      simp [dictSet, dictGet, h0, hkk]
    · by_cases h1 : k0 = k'
      · simp [dictSet, dictGet, h0, h1, h]
      · simp [dictSet, dictGet, h0, h1, ih]

/-- `firstHit` returns the image of `a` when `a` is the only element of the
list on which `f` fires. -/
theorem firstHit_eq_of_unique {α β : Type} {f : α → Option β} {l : List α} {a : α} {b : β}
    (ha : a ∈ l) (hfa : f a = some b) (huniq : ∀ x ∈ l, f x ≠ none → x = a) :
    firstHit f l = some b := by
  induction l with
  | nil => cases ha
  | cons x l ih =>
    rcases hfx : f x with _ | c
    · simp only [firstHit, hfx]
      have hmem : a ∈ l := by
        rcases List.mem_cons.mp ha with rfl | hm
        · rw [hfa] at hfx; cases hfx
        · exact hm
      exact ih hmem fun y hy hfy => huniq y (List.mem_cons_of_mem _ hy) hfy
    · have hxa : x = a := huniq x (List.mem_cons_self x l) (by simp [hfx])
      simp only [firstHit, hfx]
      rw [hxa, hfa] at hfx
      exact hfx.symm

theorem findMiscountPair_eq (main : CountMap) (l1 l2 : String)
    (hl1 : l1 ∈ basics) (hl2 : l2 ∈ basics) (hne : l1 ≠ l2)
    (h59 : dictGet main l1 = 59) (h1 : dictGet main l2 = 1)
    (h59u : ∀ b ∈ basics, dictGet main b = 59 → b = l1)
    (h1u : ∀ b ∈ basics, b ≠ l1 → dictGet main b = 1 → b = l2) :
    findMiscountPair main = some (l1, l2) := by
  unfold findMiscountPair
  refine firstHit_eq_of_unique hl1 ?_ ?_
  · rw [if_pos h59]
    refine firstHit_eq_of_unique hl2 ?_ ?_
    · rw [if_pos ⟨fun he => hne he.symm, h1⟩]
    · intro x hx hfx
      by_cases hc : x ≠ l1 ∧ dictGet main x = 1
      · exact h1u x hx hc.1 hc.2
      · exact absurd (by rw [if_neg hc]) hfx
  · intro x hx hfx
    by_cases hc : dictGet main x = 59
    · exact h59u x hx hc
    · exact absurd (by rw [if_neg hc]) hfx

/-- C5: on a deck whose main total is not 60, with a unique basic land at 59
and a unique other basic land at 1, the lands-miscount rule rewrites those two
lands to 20 and 4, and every other count and the side section are unchanged;
in particular main `{Island: 59, Forest: 1, Opt: 4, Counterspell: 4}` becomes
`{Island: 20, Forest: 4, Opt: 4, Counterspell: 4}`. -/
theorem C5_lands_miscount (deck : DictDeck) (l1 l2 : String)
    (hl1 : l1 ∈ basics) (hl2 : l2 ∈ basics) (hne : l1 ≠ l2)
    (h59 : dictGet deck.main l1 = 59) (h1 : dictGet deck.main l2 = 1)
    (h59u : ∀ b ∈ basics, dictGet deck.main b = 59 → b = l1)
    (h1u : ∀ b ∈ basics, b ≠ l1 → dictGet deck.main b = 1 → b = l2)
    (htot : sumValues deck.main ≠ 60) :
    dictGet (fix_mtgo_lands_count_bug deck).main l1 = 20 ∧
      dictGet (fix_mtgo_lands_count_bug deck).main l2 = 4 ∧
      (∀ k, k ≠ l1 → k ≠ l2 →
        dictGet (fix_mtgo_lands_count_bug deck).main k = dictGet deck.main k) ∧
      (fix_mtgo_lands_count_bug deck).side = deck.side ∧
      fix_mtgo_lands_count_bug
          { main := [("Island", 59), ("Forest", 1), ("Opt", 4), ("Counterspell", 4)]
            side := [] } =
        { main := [("Island", 20), ("Forest", 4), ("Opt", 4), ("Counterspell", 4)]
          side := [] } := by
  have hfix : fix_mtgo_lands_count_bug deck =
      { deck with main := dictSet (dictSet deck.main l1 20) l2 4 } := by
    unfold fix_mtgo_lands_count_bug
    rw [if_neg htot, findMiscountPair_eq deck.main l1 l2 hl1 hl2 hne h59 h1 h59u h1u]
  refine ⟨?_, ?_, ?_, ?_, by decide⟩
  · rw [hfix]
    show dictGet (dictSet (dictSet deck.main l1 20) l2 4) l1 = 20
    rw [dictGet_dictSet_other _ _ _ _ hne, dictGet_dictSet_self]
  · rw [hfix]
    exact dictGet_dictSet_self ..
  · intro k hk1 hk2
    rw [hfix]
    show dictGet (dictSet (dictSet deck.main l1 20) l2 4) k = _
    rw [dictGet_dictSet_other _ _ _ _ hk2, dictGet_dictSet_other _ _ _ _ hk1]
  · rw [hfix]

/-- Witness for `C5_lands_miscount` at the concrete 59+1 deck of the claim. -/
theorem C5_lands_miscount_witness :
    dictGet (fix_mtgo_lands_count_bug
        { main := [("Island", 59), ("Forest", 1), ("Opt", 4), ("Counterspell", 4)]
          side := [] }).main "Island" = 20 :=
  (C5_lands_miscount
    { main := [("Island", 59), ("Forest", 1), ("Opt", 4), ("Counterspell", 4)], side := [] }
    "Island" "Forest" (by decide) (by decide) (by decide) (by decide) (by decide)
    (by decide) (by decide) (by decide)).1

/-! ## Deck parser (src/backend/app/services/ocr_service.py) -/

/-- `CardEntry` from src/backend/app/models.py (the parser never fills
`candidates`). -/
structure CardEntry where
  qty : Nat
  name : PyStr
deriving DecidableEq, Repr

/-- `DeckSections` from src/backend/app/models.py. -/
structure DeckSections where
  main : List CardEntry
  side : List CardEntry
deriving DecidableEq, Repr

/-- The sideboard marker list of `_parse_cards` (line 430). -/
def markerStrings : List PyStr := [pys "sideboard", pys "side board", pys "sb"]

/-- The UI-substring skip list of `_parse_cards` (line 435). -/
def skipCombined : List PyStr :=
  [pys "cards", pys "deck", pys "total", pys "/", pys "done", pys "best of"]

/-- The UI-substring skip list of `_parse_cards_mtga` (line 336). -/
def skipMtga : List PyStr :=
  [pys "sideboard", pys "cards", pys "deck", pys "total", pys "/", pys "done",
   pys "best of", pys "temur otters"]

/-- `re.match(r'^(\d+)\s+(.+)$', text)` with `int()` on group 1 and `.strip()`
on group 2: a maximal nonempty digit run, a nonempty whitespace run, and a
nonempty remainder that `.` can span (so free of newlines). -/
def qtyNameMatch (t : PyStr) : Option (Nat × PyStr) :=
  let ds := t.takeWhile isAsciiDigit
  let r1 := t.dropWhile isAsciiDigit
  let rest := r1.dropWhile pyIsSpaceChar
  if ds ≠ [] ∧ r1.takeWhile pyIsSpaceChar ≠ [] ∧ rest ≠ [] ∧ ¬ rest.contains '\n' then
    some (digitsToNat ds, pyStrip rest)
  else none

/-- `re.match(r'^x(\d+)$', text, re.IGNORECASE)` with `int()` on the group. -/
def xQtyMatch (t : PyStr) : Option Nat :=
  match t with
  | [] => none
  | c :: ds =>
    if (c = 'x' ∨ c = 'X') ∧ ds ≠ [] ∧ ds.all isAsciiDigit then some (digitsToNat ds)
    else none

/-- Python `str.isdigit()` over the modelled repertoire. -/
def isDigitStr (t : PyStr) : Bool := !t.isEmpty && t.all isAsciiDigit

/-- `re.match(r'^\d+/\d+$', text)`. -/
def slashDigitsMatch (t : PyStr) : Bool :=
  let ds := t.takeWhile isAsciiDigit
  match t.dropWhile isAsciiDigit with
  | c :: rest => !ds.isEmpty && c = '/' && !rest.isEmpty && rest.all isAsciiDigit
  | [] => false

/-- The character class the name-cleaning `re.sub` keeps (everything outside
it is deleted): word characters, whitespace, apostrophe, comma, slash,
hyphen. -/
def keepMtgaChar (c : Char) : Bool :=
  pyIsAlphaChar c || isAsciiDigit c || c = '_' || pyIsSpaceChar c ||
    c = Char.ofNat 39 || c = ',' || c = '/' || c = '-'

/-- The name cleaning of `_parse_cards_mtga` (ocr_service.py line 373):
delete every character outside the kept class, then strip. -/
def cleanMtgaName (s : PyStr) : PyStr := pyStrip (s.filter keepMtgaChar)

/-- `MTGO`/`Magic Online` detection over the first ten stripped lines
(`_parse_cards` line 417). -/
def mtgoDetect (spans : List PyStr) : Bool :=
  ((spans.map pyStrip).take 10).any fun l =>
    pyContains l (pys "MTGO") || pyContains l (pys "Magic Online")

/-- `side_entries.append(entry) if is_sideboard else main_entries.append(entry)`. -/
def pushEntry (sb : Bool) (e : CardEntry) (ms : List CardEntry × List CardEntry) :
    List CardEntry × List CardEntry :=
  if sb then (ms.1, e :: ms.2) else (e :: ms.1, ms.2)

/-- The per-span loop of `_parse_cards` (ocr_service.py lines 426–460):
sideboard-marker handling (disabled in force-complete mode), UI-substring
skipping, the `"<digits> <name>"` pattern with its 1–20 quantity guard, and
the qty-1 fallback for name-like lines (length > 2, has a letter, does not
start with `x`).  Returns `(main_entries, side_entries)`. -/
def parseCombined (force : Bool) : Bool → List PyStr → List CardEntry × List CardEntry
  | _, [] => ([], [])
  | sb, t0 :: rest =>
    let text := pyStrip t0
    if pyLower text ∈ markerStrings ∧ ¬ force then parseCombined force true rest
    else if skipCombined.any (fun p => pyContains (pyLower text) p) then
      parseCombined force sb rest
    else
      match qtyNameMatch text with
      | some (q, name) =>
        if name ≠ [] ∧ 0 < q ∧ q ≤ 20 then
          pushEntry sb ⟨q, name⟩ (parseCombined force sb rest)
        else parseCombined force sb rest
      | none =>
        if 2 < text.length ∧ text.any pyIsAlphaChar ∧ pyStartsWith text (pys "x") = false then
          pushEntry sb ⟨1, text⟩ (parseCombined force sb rest)
        else parseCombined force sb rest

/-- The force-complete redistribution of `_parse_cards` (lines 462–485): walk
the entries, filling the main section up to 60 quantity units, splitting the
straddling entry, sending the rest to the side. -/
def redistributeForce (acc : Nat) : List CardEntry → List CardEntry × List CardEntry
  | [] => ([], [])
  | c :: rest =>
    if acc < 60 then
      if c.qty ≤ 60 - acc then
        match redistributeForce (acc + c.qty) rest with
        | (m, s) => (c :: m, s)
      else
        match redistributeForce 60 rest with
        | (m, s) =>
          ((if 0 < 60 - acc then [⟨60 - acc, c.name⟩] else []) ++ m,
            ⟨c.qty - (60 - acc), c.name⟩ :: s)
    else
      match redistributeForce acc rest with
      | (m, s) => (m, c :: s)

/-- The 60-card split of `_parse_cards_mtga` (lines 384–399); identical to the
force-complete redistribution except that the main-side half of a straddling
entry is appended without the `remaining_main > 0` guard. -/
def redistributeMtga (acc : Nat) : List CardEntry → List CardEntry × List CardEntry
  | [] => ([], [])
  | c :: rest =>
    if acc < 60 then
      if c.qty ≤ 60 - acc then
        match redistributeMtga (acc + c.qty) rest with
        | (m, s) => (c :: m, s)
      else
        match redistributeMtga 60 rest with
        | (m, s) => (⟨60 - acc, c.name⟩ :: m, ⟨c.qty - (60 - acc), c.name⟩ :: s)
    else
      match redistributeMtga acc rest with
      | (m, s) => (m, c :: s)

/-- Appending one card in `_parse_cards_mtga`: clean the name, then keep the
entry only if the name is nonempty and the quantity is in 1–20 (lines
373–377). -/
def mtgaPush (name : PyStr) (q : Nat) (tail : List CardEntry) : List CardEntry :=
  let cn := cleanMtgaName name
  if cn ≠ [] ∧ 0 < q ∧ q ≤ 20 then ⟨q, cn⟩ :: tail else tail

/-- The scanning loop of `_parse_cards_mtga` (lines 331–379): skip UI
substrings, bare numbers, `<d>/<d>` patterns and standalone `x<d>` quantity
lines; a name-like line takes its quantity from a following `x<digits>` line
(consuming both lines) or defaults to 1. -/
def parseMtgaLoop : List PyStr → List CardEntry
  | [] => []
  | [t0] =>
    let text := pyStrip t0
    if skipMtga.any (fun p => pyContains (pyLower text) p) then []
    else if isDigitStr text || slashDigitsMatch text || text = pys "011" || text = pys "017" then
      []
    else if (xQtyMatch text).isSome then []
    else if 2 < text.length ∧ text.any pyIsAlphaChar then mtgaPush text 1 []
    else []
  | t0 :: next0 :: rest2 =>
    let text := pyStrip t0
    if skipMtga.any (fun p => pyContains (pyLower text) p) then
      parseMtgaLoop (next0 :: rest2)
    else if isDigitStr text || slashDigitsMatch text || text = pys "011" || text = pys "017" then
      parseMtgaLoop (next0 :: rest2)
    else if (xQtyMatch text).isSome then parseMtgaLoop (next0 :: rest2)
    else if 2 < text.length ∧ text.any pyIsAlphaChar then
      match xQtyMatch (pyStrip next0) with
      | some q => mtgaPush text q (parseMtgaLoop rest2)
      | none => mtgaPush text 1 (parseMtgaLoop (next0 :: rest2))
    else parseMtgaLoop (next0 :: rest2)

/-- `_parse_cards_mtga` (ocr_service.py lines 317–401): scan for entries, then
split the entry list at 60 cumulative quantity units into main and side. -/
def parseCardsMtga (spans : List PyStr) : DeckSections :=
  match redistributeMtga 0 (parseMtgaLoop spans) with
  | (m, s) => ⟨m, s⟩

/-- `all_cards = main_entries + side_entries` of the force-complete branch of
`_parse_cards` (line 464). -/
def forcedEntries (spans : List PyStr) : List CardEntry :=
  (parseCombined true false spans).1 ++ (parseCombined true false spans).2

/-- The `(main_entries, side_entries)` of `_parse_cards` after the optional
force-complete redistribution (lines 411–485). -/
def combinedResult (spans : List PyStr) : List CardEntry × List CardEntry :=
  if mtgoDetect spans then redistributeForce 0 (forcedEntries spans)
  else parseCombined false false spans

/-- `_parse_cards` (ocr_service.py lines 403–492): detect MTGO force-complete
mode from the first ten lines, run the combined-line loop, redistribute at 60
units in force mode, and keep the result only when it has at least 20 entries —
otherwise fall back to `_parse_cards_mtga` on the same spans. -/
def parseCards (spans : List PyStr) : DeckSections :=
  if 20 ≤ (combinedResult spans).1.length + (combinedResult spans).2.length then
    ⟨(combinedResult spans).1, (combinedResult spans).2⟩
  else parseCardsMtga spans

/-- Total quantity units of an entry list (`sum(c.qty for c in ...)`). -/
def sumQty (l : List CardEntry) : Nat := (l.map CardEntry.qty).sum

/-- An entry list flattened to one name per quantity unit; two entry lists
with the same flattening carry the same cards in the same order, differing
only in how runs are split into entries. -/
def flattenEntries (l : List CardEntry) : List PyStr :=
  l.flatMap fun e => List.replicate e.qty e.name

theorem sumQty_nil : sumQty [] = 0 := rfl

theorem sumQty_cons (c : CardEntry) (l : List CardEntry) :
    sumQty (c :: l) = c.qty + sumQty l := by
  simp [sumQty]

theorem flattenEntries_nil : flattenEntries [] = [] := rfl

theorem flattenEntries_cons (c : CardEntry) (l : List CardEntry) :
    flattenEntries (c :: l) = List.replicate c.qty c.name ++ flattenEntries l := by
  simp [flattenEntries]

theorem redistributeForce_of_ge (l : List CardEntry) :
    ∀ acc, 60 ≤ acc → redistributeForce acc l = ([], l) := by
  induction l with
  | nil => intro acc _; rfl
  | cons c rest ih =>
    intro acc h
    have hnl : ¬ acc < 60 := by omega
    simp only [redistributeForce, if_neg hnl, ih acc h]

theorem redistributeMtga_of_ge (l : List CardEntry) :
    ∀ acc, 60 ≤ acc → redistributeMtga acc l = ([], l) := by
  induction l with
  | nil => intro acc _; rfl
  | cons c rest ih =>
    intro acc h
    have hnl : ¬ acc < 60 := by omega
    simp only [redistributeMtga, if_neg hnl, ih acc h]

/-- The force-complete redistribution fills main to exactly 60 units, sends
the remaining units to side, and preserves the flattened card sequence. -/
theorem redistributeForce_spec (l : List CardEntry) :
    ∀ acc, acc ≤ 60 → 60 ≤ acc + sumQty l →
      sumQty (redistributeForce acc l).1 = 60 - acc ∧
        sumQty (redistributeForce acc l).2 = acc + sumQty l - 60 ∧
        flattenEntries (redistributeForce acc l).1 ++ flattenEntries (redistributeForce acc l).2 =
          flattenEntries l := by
  induction l with
  | nil =>
    intro acc h1 h2
    rw [sumQty_nil] at h2
    refine ⟨?_, ?_, rfl⟩
    · show sumQty [] = 60 - acc
      rw [sumQty_nil]; omega
    · show sumQty [] = acc + sumQty [] - 60
      rw [sumQty_nil]; omega
  | cons c rest ih =>
    intro acc h1 h2
    rw [sumQty_cons] at h2
    by_cases hlt : acc < 60
    · by_cases hle : c.qty ≤ 60 - acc
      · obtain ⟨ih1, ih2, ih3⟩ := ih (acc + c.qty) (by omega) (by omega)
        rcases hrec : redistributeForce (acc + c.qty) rest with ⟨m, s⟩
        rw [hrec] at ih1 ih2 ih3
        simp only [redistributeForce, if_pos hlt, if_pos hle, hrec]
        refine ⟨?_, ?_, ?_⟩
        · rw [sumQty_cons, ih1]; omega
        · rw [ih2, sumQty_cons]; omega
        · rw [flattenEntries_cons, flattenEntries_cons, List.append_assoc, ih3]
      · have h0 : 0 < 60 - acc := by omega
        simp only [redistributeForce, if_pos hlt, if_neg hle,
          redistributeForce_of_ge rest 60 (le_refl 60), if_pos h0]
        refine ⟨?_, ?_, ?_⟩
        · rw [List.append_nil]
          show sumQty [⟨60 - acc, c.name⟩] = 60 - acc
          simp [sumQty]
        · show sumQty (⟨c.qty - (60 - acc), c.name⟩ :: rest) = acc + sumQty (c :: rest) - 60
          rw [sumQty_cons, sumQty_cons]
          show c.qty - (60 - acc) + sumQty rest = _
          omega
        · rw [List.append_nil, flattenEntries_cons, flattenEntries_cons, flattenEntries_cons,
            flattenEntries_nil, List.append_nil, ← List.append_assoc, ← List.replicate_add]
          have hq : 60 - acc + (c.qty - (60 - acc)) = c.qty := by omega
          rw [hq]
    · have hacc : acc = 60 := by omega
      subst hacc
      rw [redistributeForce_of_ge (c :: rest) 60 (le_refl 60)]
      refine ⟨by simp [sumQty], ?_, by simp [flattenEntries]⟩
      rw [sumQty_cons]
      show sumQty (c :: rest) = 60 + (c.qty + sumQty rest) - 60
      rw [sumQty_cons]
      omega

/-- The concrete span sequence of the spec's combined-line sideboard
scenario. -/
def sideboardScenario : List PyStr :=
  [pys "4 Lightning Bolt", pys "4 Counterspell", pys "2 Teferi, Hero of Dominaria",
   pys "Sideboard", pys "3 Negate"]

/-- C3 counterexample: on the quoted 5-span sequence, `_parse_cards` does NOT
return the claimed segmentation.  Only 4 entries parse, so the `>= 20` entry
check fails and the parser falls back to `_parse_cards_mtga`, which returns
every line as a quantity-1 card with the digits embedded in the name. -/
theorem C3_sideboard_scenario_fails :
    parseCards sideboardScenario =
      { main := [⟨1, pys "4 Lightning Bolt"⟩, ⟨1, pys "4 Counterspell"⟩,
                 ⟨1, pys "2 Teferi, Hero of Dominaria"⟩, ⟨1, pys "3 Negate"⟩]
        side := [] } ∧
      parseCards sideboardScenario ≠
        { main := [⟨4, pys "Lightning Bolt"⟩, ⟨4, pys "Counterspell"⟩,
                   ⟨2, pys "Teferi, Hero of Dominaria"⟩]
          side := [⟨3, pys "Negate"⟩] } := by
  refine ⟨by decide, by decide⟩

/-- C3 (amended): the marker segmentation does hold whenever the combined-line
pass yields at least 20 entries: with the three quoted lines followed by 16
further main-deck lines, then the `Sideboard` marker, then `3 Negate`, the
entries before the marker go to main and the entry after it goes to side, in
input order. -/
theorem C3_sideboard_segmentation_amended :
    parseCards
        ([pys "4 Lightning Bolt", pys "4 Counterspell", pys "2 Teferi, Hero of Dominaria"]
          ++ List.replicate 16 (pys "4 Opt") ++ [pys "Sideboard", pys "3 Negate"]) =
      { main := [⟨4, pys "Lightning Bolt"⟩, ⟨4, pys "Counterspell"⟩,
                 ⟨2, pys "Teferi, Hero of Dominaria"⟩] ++ List.replicate 16 ⟨4, pys "Opt"⟩
        side := [⟨3, pys "Negate"⟩] } := by
  decide

/-- The concrete MTGO-headed span sequence used to refute C4 as stated. -/
def mtgoScenario : List PyStr :=
  [pys "MTGO", pys "20 Aaa", pys "20 Bbb", pys "20 Ccc", pys "15 Ddd"]

/-- C4 counterexample: an MTGO-headed span sequence whose parsed entries total
76 main-quantity units, yet the main section of the result does not hold 60
units — after the force-complete redistribution only 6 entries remain, so the
`>= 20` entry check discards the redistributed result and falls back to
`_parse_cards_mtga`. -/
theorem C4_mtgo_scenario_fails :
    mtgoDetect mtgoScenario = true ∧
      60 ≤ sumQty (forcedEntries mtgoScenario) ∧
      sumQty (parseCards mtgoScenario).main ≠ 60 := by
  refine ⟨by decide, by decide, by decide⟩

/-- C4 (amended): for an MTGO-headed span sequence whose parsed entries total
at least 60 quantity units AND whose redistributed result keeps at least 20
entries, `_parse_cards` ignores sideboard markers, fills main to exactly 60
units, sends the remaining units to side, splits the straddling entry, and
preserves entry order (equal flattened card sequences). -/
theorem C4_mtgo_force_complete (spans : List PyStr)
    (hforce : mtgoDetect spans = true)
    (htot : 60 ≤ sumQty (forcedEntries spans))
    (hlen : 20 ≤ (redistributeForce 0 (forcedEntries spans)).1.length +
        (redistributeForce 0 (forcedEntries spans)).2.length) :
    parseCards spans =
        ⟨(redistributeForce 0 (forcedEntries spans)).1,
          (redistributeForce 0 (forcedEntries spans)).2⟩ ∧
      sumQty (parseCards spans).main = 60 ∧
      sumQty (parseCards spans).side = sumQty (forcedEntries spans) - 60 ∧
      flattenEntries (parseCards spans).main ++ flattenEntries (parseCards spans).side =
        flattenEntries (forcedEntries spans) := by
  have hcr : combinedResult spans = redistributeForce 0 (forcedEntries spans) := by
    simp [combinedResult, hforce]
  have hpc : parseCards spans =
      ⟨(redistributeForce 0 (forcedEntries spans)).1,
        (redistributeForce 0 (forcedEntries spans)).2⟩ := by
    unfold parseCards
    rw [hcr, if_pos hlen]
  obtain ⟨h1, h2, h3⟩ := redistributeForce_spec (forcedEntries spans) 0 (by omega)
    (by simpa using htot)
  rw [hpc]
  exact ⟨rfl, by simpa using h1, by simpa using h2, h3⟩

/-- Witness for `C4_mtgo_force_complete`: an MTGO header followed by nineteen
`4 Opt` lines (77 units, 21 redistributed entries) yields exactly 60 main
units. -/
theorem C4_mtgo_force_complete_witness :
    sumQty (parseCards (pys "MTGO" :: List.replicate 19 (pys "4 Opt"))).main = 60 :=
  (C4_mtgo_force_complete (pys "MTGO" :: List.replicate 19 (pys "4 Opt"))
    (by decide) (by decide) (by decide)).2.1

theorem pushEntry_mem {sb : Bool} {x e : CardEntry} {ms : List CardEntry × List CardEntry}
    (h : e ∈ (pushEntry sb x ms).1 ∨ e ∈ (pushEntry sb x ms).2) :
    e = x ∨ e ∈ ms.1 ∨ e ∈ ms.2 := by
  cases sb with
  | false =>
    rcases h with h | h
    · have h' : e ∈ x :: ms.1 := h
      rcases List.mem_cons.mp h' with h' | h'
      · exact Or.inl h'
      · exact Or.inr (Or.inl h')
    · exact Or.inr (Or.inr h)
  | true =>
    rcases h with h | h
    · exact Or.inr (Or.inl h)
    · have h' : e ∈ x :: ms.2 := h
      rcases List.mem_cons.mp h' with h' | h'
      · exact Or.inl h'
      · exact Or.inr (Or.inr h')

/-- Every entry the combined-line loop emits has quantity in 1–20. -/
theorem parseCombined_bounds (force : Bool) :
    ∀ (spans : List PyStr) (sb : Bool) (e : CardEntry),
      e ∈ (parseCombined force sb spans).1 ∨ e ∈ (parseCombined force sb spans).2 →
      1 ≤ e.qty ∧ e.qty ≤ 20 := by
  intro spans
  induction spans with
  | nil => intro sb e h; simp [parseCombined] at h
  | cons t0 rest ih =>
    intro sb e h
    simp only [parseCombined] at h
    split at h
    · exact ih true e h
    · split at h
      · exact ih sb e h
      · split at h
        next q name heq =>
          split at h
          next hg =>
            rcases pushEntry_mem h with rfl | h
            · exact ⟨hg.2.1, hg.2.2⟩
            · exact ih sb e h
          next => exact ih sb e h
        next heq =>
          split at h
          next hg =>
            rcases pushEntry_mem h with rfl | h
            · exact ⟨Nat.le_refl 1, by show (1 : Nat) ≤ 20; omega⟩
            · exact ih sb e h
          next => exact ih sb e h

theorem mtgaPush_mem {name : PyStr} {q : Nat} {tail : List CardEntry} {e : CardEntry}
    (h : e ∈ mtgaPush name q tail) : (1 ≤ e.qty ∧ e.qty ≤ 20) ∨ e ∈ tail := by
  simp only [mtgaPush] at h
  split at h
  next hg =>
    rcases List.mem_cons.mp h with rfl | h
    · exact Or.inl ⟨hg.2.1, hg.2.2⟩
    · exact Or.inr h
  next => exact Or.inr h

/-- Every entry the `_parse_cards_mtga` scanning loop emits has quantity in
1–20. -/
theorem parseMtgaLoop_bounds : ∀ (spans : List PyStr), ∀ e ∈ parseMtgaLoop spans,
    1 ≤ e.qty ∧ e.qty ≤ 20 := by
  intro spans
  induction spans using parseMtgaLoop.induct with
  | case1 => intro e h; simp [parseMtgaLoop] at h
  | case2 t0 _text hA => intro e h; simp only [parseMtgaLoop, if_pos hA] at h; simp at h
  | case3 t0 _text hA hB =>
    intro e h; simp only [parseMtgaLoop, if_neg hA, if_pos hB] at h; simp at h
  | case4 t0 _text hA hB hC =>
    intro e h; simp only [parseMtgaLoop, if_neg hA, if_neg hB, if_pos hC] at h; simp at h
  | case5 t0 _text hA hB hC hD =>
    intro e h
    simp only [parseMtgaLoop, if_neg hA, if_neg hB, if_neg hC, if_pos hD] at h
    rcases mtgaPush_mem h with hb | h
    · exact hb
    · simp at h
  | case6 t0 _text hA hB hC hD =>
    intro e h
    simp only [parseMtgaLoop, if_neg hA, if_neg hB, if_neg hC, if_neg hD] at h
    simp at h
  | case7 t0 next0 rest2 _text hA ih =>
    intro e h; simp only [parseMtgaLoop, if_pos hA] at h; exact ih e h
  | case8 t0 next0 rest2 _text hA hB ih =>
    intro e h; simp only [parseMtgaLoop, if_neg hA, if_pos hB] at h; exact ih e h
  | case9 t0 next0 rest2 _text hA hB hC ih =>
    intro e h; simp only [parseMtgaLoop, if_neg hA, if_neg hB, if_pos hC] at h; exact ih e h
  | case10 t0 next0 rest2 _text hA hB hC hD q heq ih =>
    intro e h
    simp only [parseMtgaLoop, if_neg hA, if_neg hB, if_neg hC, if_pos hD, heq] at h
    rcases mtgaPush_mem h with hb | h
    · exact hb
    · exact ih e h
  | case11 t0 next0 rest2 _text hA hB hC hD heq ih =>
    intro e h
    simp only [parseMtgaLoop, if_neg hA, if_neg hB, if_neg hC, if_pos hD, heq] at h
    rcases mtgaPush_mem h with hb | h
    · exact hb
    · exact ih e h
  | case12 t0 next0 rest2 _text hA hB hC hD ih =>
    intro e h
    simp only [parseMtgaLoop, if_neg hA, if_neg hB, if_neg hC, if_neg hD] at h
    exact ih e h

/-- The `_parse_cards_mtga` 60-split preserves the 1–20 quantity bound. -/
theorem redistributeMtga_bounds : ∀ (acc : Nat) (l : List CardEntry),
    (∀ e ∈ l, 1 ≤ e.qty ∧ e.qty ≤ 20) →
    ∀ e, e ∈ (redistributeMtga acc l).1 ∨ e ∈ (redistributeMtga acc l).2 →
      1 ≤ e.qty ∧ e.qty ≤ 20 := by
  intro acc l
  induction acc, l using redistributeMtga.induct with
  | case1 acc => intro _ e h; simp [redistributeMtga] at h
  | case2 acc c rest hlt hle m s hrec ih =>
    intro hl e h
    simp only [redistributeMtga, if_pos hlt, if_pos hle, hrec] at h
    rcases h with h | h
    · rcases List.mem_cons.mp h with rfl | h
      · exact hl _ (List.mem_cons_self _ _)
      · refine ih (fun x hx => hl x (List.mem_cons_of_mem c hx)) e ?_
        rw [hrec]; exact Or.inl h
    · refine ih (fun x hx => hl x (List.mem_cons_of_mem c hx)) e ?_
      rw [hrec]; exact Or.inr h
  | case3 acc c rest hlt hle m s hrec ih =>
    intro hl e h
    have hc := hl c (List.mem_cons_self c rest)
    have hms : (m, s) = (([] : List CardEntry), rest) := by
      rw [← hrec, redistributeMtga_of_ge rest 60 (le_refl 60)]
    have hm : m = [] := congrArg Prod.fst hms
    have hs : s = rest := congrArg Prod.snd hms
    subst hm hs
    simp only [redistributeMtga, if_pos hlt, if_neg hle, hrec] at h
    rcases h with h | h
    · rcases List.mem_cons.mp h with rfl | h
      · exact ⟨by show 1 ≤ 60 - acc; omega, by show 60 - acc ≤ 20; omega⟩
      · simp at h
    · rcases List.mem_cons.mp h with rfl | h
      · exact ⟨by show 1 ≤ c.qty - (60 - acc); omega, by show c.qty - (60 - acc) ≤ 20; omega⟩
      · exact hl e (List.mem_cons_of_mem c h)
  | case4 acc c rest hge m s hrec ih =>
    intro hl e h
    simp only [redistributeMtga, if_neg hge, hrec] at h
    rcases h with h | h
    · refine ih (fun x hx => hl x (List.mem_cons_of_mem c hx)) e ?_
      rw [hrec]; exact Or.inl h
    · rcases List.mem_cons.mp h with rfl | h
      · exact hl _ (List.mem_cons_self _ _)
      · refine ih (fun x hx => hl x (List.mem_cons_of_mem c hx)) e ?_
        rw [hrec]; exact Or.inr h

/-- The force-complete redistribution preserves the 1–20 quantity bound. -/
theorem redistributeForce_bounds : ∀ (acc : Nat) (l : List CardEntry),
    (∀ e ∈ l, 1 ≤ e.qty ∧ e.qty ≤ 20) →
    ∀ e, e ∈ (redistributeForce acc l).1 ∨ e ∈ (redistributeForce acc l).2 →
      1 ≤ e.qty ∧ e.qty ≤ 20 := by
  intro acc l
  induction acc, l using redistributeForce.induct with
  | case1 acc => intro _ e h; simp [redistributeForce] at h
  | case2 acc c rest hlt hle m s hrec ih =>
    intro hl e h
    simp only [redistributeForce, if_pos hlt, if_pos hle, hrec] at h
    rcases h with h | h
    · rcases List.mem_cons.mp h with rfl | h
      · exact hl _ (List.mem_cons_self _ _)
      · refine ih (fun x hx => hl x (List.mem_cons_of_mem c hx)) e ?_
        rw [hrec]; exact Or.inl h
    · refine ih (fun x hx => hl x (List.mem_cons_of_mem c hx)) e ?_
      rw [hrec]; exact Or.inr h
  | case3 acc c rest hlt hle m s hrec ih =>
    intro hl e h
    have hc := hl c (List.mem_cons_self c rest)
    have hms : (m, s) = (([] : List CardEntry), rest) := by
      rw [← hrec, redistributeForce_of_ge rest 60 (le_refl 60)]
    have hm : m = [] := congrArg Prod.fst hms
    have hs : s = rest := congrArg Prod.snd hms
    subst hm hs
    have h0 : 0 < 60 - acc := by omega
    simp only [redistributeForce, if_pos hlt, if_neg hle, hrec, if_pos h0] at h
    rcases h with h | h
    · simp only [List.singleton_append] at h
      rcases List.mem_cons.mp h with rfl | h
      · exact ⟨by show 1 ≤ 60 - acc; omega, by show 60 - acc ≤ 20; omega⟩
      · simp at h
    · rcases List.mem_cons.mp h with rfl | h
      · exact ⟨by show 1 ≤ c.qty - (60 - acc); omega, by show c.qty - (60 - acc) ≤ 20; omega⟩
      · exact hl e (List.mem_cons_of_mem c h)
  | case4 acc c rest hge m s hrec ih =>
    intro hl e h
    simp only [redistributeForce, if_neg hge, hrec] at h
    rcases h with h | h
    · refine ih (fun x hx => hl x (List.mem_cons_of_mem c hx)) e ?_
      rw [hrec]; exact Or.inl h
    · rcases List.mem_cons.mp h with rfl | h
      · exact hl _ (List.mem_cons_self _ _)
      · refine ih (fun x hx => hl x (List.mem_cons_of_mem c hx)) e ?_
        rw [hrec]; exact Or.inr h

theorem parseCardsMtga_bounds (spans : List PyStr) :
    ∀ e, e ∈ (parseCardsMtga spans).main ∨ e ∈ (parseCardsMtga spans).side →
      1 ≤ e.qty ∧ e.qty ≤ 20 := by
  intro e h
  unfold parseCardsMtga at h
  rcases hrec : redistributeMtga 0 (parseMtgaLoop spans) with ⟨m, s⟩
  rw [hrec] at h
  refine redistributeMtga_bounds 0 (parseMtgaLoop spans)
    (fun x hx => parseMtgaLoop_bounds spans x hx) e ?_
  rw [hrec]
  exact h

theorem parseCards_bounds (spans : List PyStr) :
    ∀ e, e ∈ (parseCards spans).main ∨ e ∈ (parseCards spans).side →
      1 ≤ e.qty ∧ e.qty ≤ 20 := by
  intro e h
  unfold parseCards at h
  split at h
  · have hcb : ∀ x : CardEntry,
        x ∈ (combinedResult spans).1 ∨ x ∈ (combinedResult spans).2 →
        1 ≤ x.qty ∧ x.qty ≤ 20 := by
      intro x hx
      unfold combinedResult at hx
      split at hx
      · refine redistributeForce_bounds 0 (forcedEntries spans) ?_ x hx
        intro y hy
        rw [forcedEntries] at hy
        rcases List.mem_append.mp hy with hy | hy
        · exact parseCombined_bounds true spans false y (Or.inl hy)
        · exact parseCombined_bounds true spans false y (Or.inr hy)
      · exact parseCombined_bounds false spans false x hx
    exact hcb e h
  · exact parseCardsMtga_bounds spans e h

/-- C10 counterexample: a line whose parsed quantity is greater than 20 does
NOT always produce "no entry at all".  On the single-span sequence
`["25 Lightning Bolt"]` the combined-line pass parses quantity 25, drops the
line, and leaves fewer than 20 entries, so `_parse_cards` falls back to
`_parse_cards_mtga`, which re-emits that very line as a quantity-1 card with
the digits kept inside the name. -/
theorem C10_out_of_range_fallback_entry :
    qtyNameMatch (pyStrip (pys "25 Lightning Bolt")) = some (25, pys "Lightning Bolt") ∧
      parseCards [pys "25 Lightning Bolt"] =
        { main := [⟨1, pys "25 Lightning Bolt"⟩], side := [] } ∧
      parseCards [pys "25 Lightning Bolt"] ≠ { main := [], side := [] } := by
  refine ⟨by decide, by decide, by decide⟩

/-- C10 (amended): every card entry emitted by the deck parser — combined-line
mode, MTGA split-line mode, and the force-complete redistribution, including
the two halves of an entry split at the 60-unit boundary — has a quantity
between 1 and 20 inclusive.  Within a single pass, an out-of-range quantity
produces no entry: the combined-line loop on a non-marker line whose quantity
pattern parses with quantity 0 or above 20 returns exactly the result for the
remaining lines, and the MTGA loop on a name line followed by an `x<digits>`
line with quantity 0 or above 20 consumes both lines without emitting.  (The
end-to-end parser may still re-emit such a line as a quantity-1 entry through
the under-20-entries fallback, as the counterexample shows.) -/
theorem C10_quantity_bounds_amended :
    ((∀ (spans : List PyStr) (e : CardEntry),
        e ∈ (parseCards spans).main ∨ e ∈ (parseCards spans).side →
        1 ≤ e.qty ∧ e.qty ≤ 20) ∧
      ∀ (spans : List PyStr) (e : CardEntry),
        e ∈ (parseCardsMtga spans).main ∨ e ∈ (parseCardsMtga spans).side →
        1 ≤ e.qty ∧ e.qty ≤ 20) ∧
    (∀ (force sb : Bool) (t0 : PyStr) (rest : List PyStr) (q : Nat) (name : PyStr),
        qtyNameMatch (pyStrip t0) = some (q, name) →
        q = 0 ∨ 20 < q →
        pyLower (pyStrip t0) ∉ markerStrings →
        parseCombined force sb (t0 :: rest) = parseCombined force sb rest) ∧
    ∀ (t0 next0 : PyStr) (rest2 : List PyStr) (q : Nat),
      (skipMtga.any fun p => pyContains (pyLower (pyStrip t0)) p) = false →
      (isDigitStr (pyStrip t0) || slashDigitsMatch (pyStrip t0) ||
        pyStrip t0 = pys "011" || pyStrip t0 = pys "017") = false →
      xQtyMatch (pyStrip t0) = none →
      2 < (pyStrip t0).length ∧ (pyStrip t0).any pyIsAlphaChar = true →
      xQtyMatch (pyStrip next0) = some q →
      q = 0 ∨ 20 < q →
      parseMtgaLoop (t0 :: next0 :: rest2) = parseMtgaLoop rest2 := by
  refine ⟨⟨fun spans e h => parseCards_bounds spans e h,
    fun spans e h => parseCardsMtga_bounds spans e h⟩, ?_, ?_⟩
  · intro force sb t0 rest q name hqm hq hnm
    simp only [parseCombined]
    rw [if_neg fun hm => hnm hm.1]
    by_cases hskip : (skipCombined.any fun p => pyContains (pyLower (pyStrip t0)) p) = true
    · rw [if_pos hskip]
    · rw [if_neg hskip]
      simp only [hqm]
      rw [if_neg]
      rintro ⟨-, h0, h20⟩
      rcases hq with rfl | hlt
      · exact absurd h0 (by omega)
      · omega
  · intro t0 next0 rest2 q hA hB hC hD hq hqr
    simp only [parseMtgaLoop]
    rw [if_neg (by simp [hA]), if_neg (by simp [hB]), if_neg (by simp [hC]), if_pos hD]
    simp only [hq]
    simp only [mtgaPush]
    rw [if_neg]
    rintro ⟨-, h0, h20⟩
    rcases hqr with rfl | hlt
    · exact absurd h0 (by omega)
    · omega

/-- Witness for `C10_quantity_bounds_amended`: the combined-line loop drops
the out-of-range line `25 Lightning Bolt` entirely, and the MTGA loop drops a
name line paired with `x25`. -/
theorem C10_quantity_bounds_amended_witness :
    parseCombined false false [pys "25 Lightning Bolt", pys "4 Opt"] =
        parseCombined false false [pys "4 Opt"] ∧
      parseMtgaLoop [pys "Lightning Bolt", pys "x25", pys "Opt"] =
        parseMtgaLoop [pys "Opt"] :=
  ⟨C10_quantity_bounds_amended.2.1 false false (pys "25 Lightning Bolt") [pys "4 Opt"]
      25 (pys "Lightning Bolt") (by decide) (by decide) (by decide),
    C10_quantity_bounds_amended.2.2 (pys "Lightning Bolt") (pys "x25") [pys "Opt"] 25
      (by decide) (by decide) (by decide) (by decide) (by decide) (by decide)⟩

/-! ## Name normalization (src/backend/app/matching/fuzzy.py)

`normalize_name` strips, lower-cases, applies NFKD and removes combining
marks, then collapses whitespace via `" ".join(s.split())`.  The Unicode
tables are modelled over the repertoire the card pipeline meets: ASCII, the
Latin-1 letters (with their NFKD decompositions into base letter + combining
mark), and the combining diacritical marks block U+0300–U+036F. -/

/-- The NFKD decompositions of the Latin-1 letters, as
`(code point, base letter, combining mark)`; letters without a decomposition
(Æ Ð × Ø Þ ß and their lowercase forms) are absent. -/
def latin1DecompTable : List (Nat × Nat × Nat) :=
  [(0xC0, 65, 0x300), (0xC1, 65, 0x301), (0xC2, 65, 0x302), (0xC3, 65, 0x303),
   (0xC4, 65, 0x308), (0xC5, 65, 0x30A), (0xC7, 67, 0x327),
   (0xC8, 69, 0x300), (0xC9, 69, 0x301), (0xCA, 69, 0x302), (0xCB, 69, 0x308),
   (0xCC, 73, 0x300), (0xCD, 73, 0x301), (0xCE, 73, 0x302), (0xCF, 73, 0x308),
   (0xD1, 78, 0x303),
   (0xD2, 79, 0x300), (0xD3, 79, 0x301), (0xD4, 79, 0x302), (0xD5, 79, 0x303),
   (0xD6, 79, 0x308),
   (0xD9, 85, 0x300), (0xDA, 85, 0x301), (0xDB, 85, 0x302), (0xDC, 85, 0x308),
   (0xDD, 89, 0x301),
   (0xE0, 97, 0x300), (0xE1, 97, 0x301), (0xE2, 97, 0x302), (0xE3, 97, 0x303),
   (0xE4, 97, 0x308), (0xE5, 97, 0x30A), (0xE7, 99, 0x327),
   (0xE8, 101, 0x300), (0xE9, 101, 0x301), (0xEA, 101, 0x302), (0xEB, 101, 0x308),
   (0xEC, 105, 0x300), (0xED, 105, 0x301), (0xEE, 105, 0x302), (0xEF, 105, 0x308),
   (0xF1, 110, 0x303),
   (0xF2, 111, 0x300), (0xF3, 111, 0x301), (0xF4, 111, 0x302), (0xF5, 111, 0x303),
   (0xF6, 111, 0x308),
   (0xF9, 117, 0x300), (0xFA, 117, 0x301), (0xFB, 117, 0x302), (0xFC, 117, 0x308),
   (0xFD, 121, 0x301), (0xFF, 121, 0x308)]

/-- `unicodedata.normalize("NFKD", ·)` for one character of the modelled
repertoire: a decomposable Latin-1 letter becomes base letter followed by its
combining mark; everything else maps to itself. -/
def nfkdChar (c : Char) : List Char :=
  match latin1DecompTable.find? (fun p => p.1 = c.toNat) with
  | some p => [Char.ofNat p.2.1, Char.ofNat p.2.2]
  | none => [c]

/-- `unicodedata.combining(c) != 0` over the modelled repertoire: the
combining diacritical marks block U+0300–U+036F. -/
def combiningChar (c : Char) : Bool := 0x300 ≤ c.toNat && c.toNat ≤ 0x36F

/-- NFKD of a whole string. -/
def nfkdStr (s : PyStr) : PyStr := s.flatMap nfkdChar

/-- `"".join(c for c in s if not unicodedata.combining(c))`. -/
def stripCombining (s : PyStr) : PyStr := s.filter fun c => !combiningChar c

/-- Accumulator tokenizer behind `pySplit`; `cur` holds the reversed current
word. -/
def pySplitAux : PyStr → PyStr → List PyStr
  | [], cur => if cur.isEmpty then [] else [cur.reverse]
  | c :: t, cur =>
    if pyIsSpaceChar c then
      if cur.isEmpty then pySplitAux t [] else cur.reverse :: pySplitAux t []
    else pySplitAux t (c :: cur)

/-- Python `str.split()` (split on whitespace runs, dropping empty words). -/
def pySplit (s : PyStr) : List PyStr := pySplitAux s []

theorem pySplit_nil : pySplit [] = [] := rfl

theorem pySplit_space {c : Char} (t : PyStr) (h : pyIsSpaceChar c = true) :
    pySplit (c :: t) = pySplit t := by
  show pySplitAux (c :: t) [] = pySplitAux t []
  simp [pySplitAux, h]

theorem pySplitAux_word (t : PyStr) : ∀ cur, cur ≠ [] →
    pySplitAux t cur = (cur.reverse ++ t.takeWhile fun d => !pyIsSpaceChar d)
      :: pySplit (t.dropWhile fun d => !pyIsSpaceChar d) := by
  induction t with
  | nil =>
    intro cur hc
    have he : cur.isEmpty = false := by
      cases cur
      · cases hc rfl
      · rfl
    simp [pySplitAux, pySplit, he]
  | cons d t ih =>
    intro cur hc
    by_cases hd : pyIsSpaceChar d = true
    · have he : cur.isEmpty = false := by
        cases cur
        · cases hc rfl
        · rfl
      have htw : List.takeWhile (fun x => !pyIsSpaceChar x) (d :: t) = [] := by
        simp [List.takeWhile_cons, hd]
      have hdw : List.dropWhile (fun x => !pyIsSpaceChar x) (d :: t) = d :: t := by
        simp [List.dropWhile_cons, hd]
      rw [htw, hdw, List.append_nil, pySplit_space t hd]
      show pySplitAux (d :: t) cur = cur.reverse :: pySplitAux t []
      simp [pySplitAux, hd, he]
    · have hdf : pyIsSpaceChar d = false := by
        cases h2 : pyIsSpaceChar d
        · rfl
        · exact absurd h2 hd
      have htw : List.takeWhile (fun x => !pyIsSpaceChar x) (d :: t) =
          d :: List.takeWhile (fun x => !pyIsSpaceChar x) t := by
        simp [List.takeWhile_cons, hdf]
      have hdw : List.dropWhile (fun x => !pyIsSpaceChar x) (d :: t) =
          List.dropWhile (fun x => !pyIsSpaceChar x) t := by
        simp [List.dropWhile_cons, hdf]
      rw [htw, hdw]
      have hlhs : pySplitAux (d :: t) cur = pySplitAux t (d :: cur) := by
        simp [pySplitAux, hdf]
      rw [hlhs, ih (d :: cur) (by simp), List.reverse_cons]
      simp [List.append_assoc]

theorem pySplit_word {c : Char} (t : PyStr) (h : pyIsSpaceChar c = false) :
    pySplit (c :: t) = (c :: t.takeWhile fun d => !pyIsSpaceChar d)
      :: pySplit (t.dropWhile fun d => !pyIsSpaceChar d) := by
  have h1 : pySplitAux (c :: t) [] = pySplitAux t [c] := by simp [pySplitAux, h]
  show pySplitAux (c :: t) [] = _
  rw [h1, pySplitAux_word t [c] (by simp)]
  rfl

/-- `" ".join(ws)`. -/
def joinSpace : List PyStr → PyStr
  | [] => []
  | [w] => w
  | w :: ws => w ++ ' ' :: joinSpace ws

/-- `normalize_name` from src/backend/app/matching/fuzzy.py lines 6–12:
`s.strip().lower()`, NFKD with combining marks dropped, then
`" ".join(s.split())`. -/
def normalize_name (s : PyStr) : PyStr :=
  joinSpace (pySplit (stripCombining (nfkdStr (pyLower (pyStrip s)))))

theorem mem_takeWhile_imp {p : Char → Bool} {l : PyStr} {a : Char}
    (h : a ∈ l.takeWhile p) : a ∈ l ∧ p a = true := by
  induction l with
  | nil => simp [List.takeWhile] at h
  | cons c t ih =>
    rw [List.takeWhile] at h
    rcases hc : p c with _ | _
    · rw [hc] at h; simp at h
    · rw [hc] at h
      rcases List.mem_cons.mp h with rfl | h
      · exact ⟨List.mem_cons_self a t, hc⟩
      · obtain ⟨h1, h2⟩ := ih h
        exact ⟨List.mem_cons_of_mem c h1, h2⟩

theorem mem_dropWhile_imp {p : Char → Bool} {l : PyStr} {a : Char}
    (h : a ∈ l.dropWhile p) : a ∈ l := by
  induction l with
  | nil => simp [List.dropWhile] at h
  | cons c t ih =>
    rw [List.dropWhile] at h
    rcases hc : p c with _ | _
    · rw [hc] at h; exact h
    · rw [hc] at h; exact List.mem_cons_of_mem c (ih h)

theorem takeWhile_all {p : Char → Bool} {l : PyStr} (h : ∀ a ∈ l, p a = true) :
    l.takeWhile p = l := by
  induction l with
  | nil => rfl
  | cons c t ih =>
    rw [List.takeWhile, h c (List.mem_cons_self c t)]
    exact congrArg (c :: ·) (ih fun a ha => h a (List.mem_cons_of_mem c ha))

theorem takeWhile_append_all {p : Char → Bool} {w : PyStr} (l : PyStr)
    (h : ∀ a ∈ w, p a = true) : (w ++ l).takeWhile p = w ++ l.takeWhile p := by
  induction w with
  | nil => rfl
  | cons c t ih =>
    rw [List.cons_append, List.takeWhile, h c (List.mem_cons_self c t)]
    exact congrArg (c :: ·) (ih fun a ha => h a (List.mem_cons_of_mem c ha))

theorem dropWhile_append_all {p : Char → Bool} {w : PyStr} (l : PyStr)
    (h : ∀ a ∈ w, p a = true) : (w ++ l).dropWhile p = l.dropWhile p := by
  induction w with
  | nil => rfl
  | cons c t ih =>
    rw [List.cons_append, List.dropWhile, h c (List.mem_cons_self c t)]
    exact ih fun a ha => h a (List.mem_cons_of_mem c ha)

theorem map_id_of {f : Char → Char} {l : PyStr} (h : ∀ a ∈ l, f a = a) :
    l.map f = l := by
  induction l with
  | nil => rfl
  | cons c t ih =>
    rw [List.map_cons, h c (List.mem_cons_self c t)]
    exact congrArg (c :: ·) (ih fun a ha => h a (List.mem_cons_of_mem c ha))

theorem flatMap_id_of {f : Char → List Char} {l : PyStr} (h : ∀ a ∈ l, f a = [a]) :
    l.flatMap f = l := by
  induction l with
  | nil => rfl
  | cons c t ih =>
    rw [List.flatMap_cons, h c (List.mem_cons_self c t)]
    exact congrArg (c :: ·) (ih fun a ha => h a (List.mem_cons_of_mem c ha))

theorem filter_id_of {p : Char → Bool} {l : PyStr} (h : ∀ a ∈ l, p a = true) :
    l.filter p = l := by
  induction l with
  | nil => rfl
  | cons c t ih =>
    rw [List.filter_cons, h c (List.mem_cons_self c t)]
    simp only [if_true]
    exact congrArg (c :: ·) (ih fun a ha => h a (List.mem_cons_of_mem c ha))

/-- Decidable form of the character-level fixed-point property: every
non-combining character produced by lower-casing then NFKD-decomposing a
character is itself fixed by lower-casing and by NFKD, and is not combining. -/
def normFixedB (c : Char) : Bool :=
  ((nfkdChar (pyLowerChar c)).filter fun d => !combiningChar d).all fun d =>
    pyLowerChar d == d && (nfkdChar d == [d]) && !combiningChar d

set_option maxRecDepth 20000 in
theorem normFixedB_lt : ∀ n < 880, normFixedB (Char.ofNat n) = true := by decide

theorem pyLowerChar_id_of_ge {c : Char} (h : 880 ≤ c.toNat) : pyLowerChar c = c := by
  unfold pyLowerChar
  rw [if_neg (by omega), if_neg (by omega)]

theorem nfkdChar_id_of_ge {c : Char} (h : 880 ≤ c.toNat) : nfkdChar c = [c] := by
  unfold nfkdChar
  have hf : latin1DecompTable.find? (fun p => p.1 = c.toNat) = none := by
    rw [List.find?_eq_none]
    intro p hp
    have hlt : p.1 < 880 := by
      have hall : ∀ q ∈ latin1DecompTable, q.1 < 880 := by decide
      exact hall p hp
    simp only [decide_eq_true_eq]
    omega
  rw [hf]

theorem combiningChar_false_of_ge {c : Char} (h : 880 ≤ c.toNat) :
    combiningChar c = false := by
  unfold combiningChar
  have h2 : ¬ c.toNat ≤ 0x36F := by omega
  simp [h2]

theorem normFixedB_all (c : Char) : normFixedB c = true := by
  by_cases hlt : c.toNat < 880
  · have hb := normFixedB_lt c.toNat hlt
    rwa [Char.ofNat_toNat] at hb
  · have h : 880 ≤ c.toNat := by omega
    unfold normFixedB
    rw [pyLowerChar_id_of_ge h, nfkdChar_id_of_ge h]
    simp [combiningChar_false_of_ge h, pyLowerChar_id_of_ge h, nfkdChar_id_of_ge h]

/-- Character-level fixed point, Prop form. -/
theorem normChar_fixed {c1 d : Char} (hd : d ∈ nfkdChar (pyLowerChar c1))
    (hcomb : combiningChar d = false) :
    pyLowerChar d = d ∧ nfkdChar d = [d] := by
  have hb := normFixedB_all c1
  unfold normFixedB at hb
  rw [List.all_eq_true] at hb
  have hmem : d ∈ (nfkdChar (pyLowerChar c1)).filter fun x => !combiningChar x :=
    List.mem_filter.mpr ⟨hd, by rw [hcomb]; rfl⟩
  have hprop := hb d hmem
  simp only [Bool.and_eq_true, beq_iff_eq] at hprop
  exact ⟨hprop.1.1, hprop.1.2⟩

/-- Every character of the strip/lower/NFKD/de-combine core is a fixed point
of lower-casing and NFKD and is not combining. -/
theorem mem_normCore_fixed {s : PyStr} {c : Char}
    (hc : c ∈ stripCombining (nfkdStr (pyLower s))) :
    pyLowerChar c = c ∧ nfkdChar c = [c] ∧ combiningChar c = false := by
  obtain ⟨hc1, hcomb⟩ := List.mem_filter.mp hc
  have hcombf : combiningChar c = false := by
    cases h : combiningChar c
    · rfl
    · rw [h] at hcomb; cases hcomb
  obtain ⟨c0, hc0, hcc⟩ := List.mem_flatMap.mp hc1
  obtain ⟨c1, _hc1m, rfl⟩ := List.mem_map.mp hc0
  obtain ⟨h1, h2⟩ := normChar_fixed hcc hcombf
  exact ⟨h1, h2, hcombf⟩

/-- Words produced by `pySplit` are nonempty and free of whitespace. -/
theorem pySplitAux_words (s : PyStr) : ∀ cur, (∀ c ∈ cur, pyIsSpaceChar c = false) →
    ∀ w ∈ pySplitAux s cur, w ≠ [] ∧ ∀ c ∈ w, pyIsSpaceChar c = false := by
  induction s with
  | nil =>
    intro cur hcur w hw
    unfold pySplitAux at hw
    split at hw
    · cases hw
    · next he =>
      rcases List.mem_cons.mp hw with rfl | hw
      · refine ⟨?_, fun c hc => hcur c (List.mem_reverse.mp hc)⟩
        intro hnil
        rw [List.reverse_eq_nil_iff] at hnil
        subst hnil
        exact he rfl
      · cases hw
  | cons c t ih =>
    intro cur hcur w hw
    unfold pySplitAux at hw
    split at hw
    · split at hw
      · exact ih [] (by simp) w hw
      · next he =>
        rcases List.mem_cons.mp hw with rfl | hw
        · refine ⟨?_, fun d hd => hcur d (List.mem_reverse.mp hd)⟩
          intro hnil
          rw [List.reverse_eq_nil_iff] at hnil
          subst hnil
          exact he rfl
        · exact ih [] (by simp) w hw
    · next hsp =>
      refine ih (c :: cur) ?_ w hw
      intro d hd
      rcases List.mem_cons.mp hd with rfl | hd
      · cases h2 : pyIsSpaceChar d
        · rfl
        · exact absurd h2 hsp
      · exact hcur d hd

theorem pySplit_words (s : PyStr) :
    ∀ w ∈ pySplit s, w ≠ [] ∧ ∀ c ∈ w, pyIsSpaceChar c = false :=
  pySplitAux_words s [] (by simp)

/-- Characters of `pySplit` words come from the accumulator or the input. -/
theorem pySplitAux_subset (s : PyStr) : ∀ cur w, w ∈ pySplitAux s cur →
    ∀ c ∈ w, c ∈ cur ∨ c ∈ s := by
  induction s with
  | nil =>
    intro cur w hw d hd
    unfold pySplitAux at hw
    split at hw
    · cases hw
    · rcases List.mem_cons.mp hw with rfl | hw
      · exact Or.inl (List.mem_reverse.mp hd)
      · cases hw
  | cons c t ih =>
    intro cur w hw d hd
    unfold pySplitAux at hw
    split at hw
    · split at hw
      · rcases ih [] w hw d hd with h | h
        · cases h
        · exact Or.inr (List.mem_cons_of_mem c h)
      · rcases List.mem_cons.mp hw with rfl | hw
        · exact Or.inl (List.mem_reverse.mp hd)
        · rcases ih [] w hw d hd with h | h
          · cases h
          · exact Or.inr (List.mem_cons_of_mem c h)
    · rcases ih (c :: cur) w hw d hd with h | h
      · rcases List.mem_cons.mp h with rfl | h
        · exact Or.inr (List.mem_cons_self d t)
        · exact Or.inl h
      · exact Or.inr (List.mem_cons_of_mem c h)

theorem pySplit_subset (s : PyStr) : ∀ w ∈ pySplit s, ∀ c ∈ w, c ∈ s := by
  intro w hw c hc
  rcases pySplitAux_subset s [] w hw c hc with h | h
  · cases h
  · exact h

/-- Every character of `joinSpace ws` is a space or a word character. -/
theorem mem_joinSpace {ws : List PyStr} {c : Char} (hc : c ∈ joinSpace ws) :
    c = ' ' ∨ ∃ w ∈ ws, c ∈ w := by
  induction ws with
  | nil => cases hc
  | cons w ws ih =>
    cases ws with
    | nil => exact Or.inr ⟨w, List.mem_cons_self w [], hc⟩
    | cons v ws' =>
      rcases List.mem_append.mp hc with h | h
      · exact Or.inr ⟨w, List.mem_cons_self w _, h⟩
      · rcases List.mem_cons.mp h with rfl | h
        · exact Or.inl rfl
        · rcases ih h with h | ⟨u, hu, hcu⟩
          · exact Or.inl h
          · exact Or.inr ⟨u, List.mem_cons_of_mem w hu, hcu⟩

theorem joinSpace_snoc (L : List PyStr) (u : PyStr) (hL : L ≠ []) :
    joinSpace (L ++ [u]) = joinSpace L ++ ' ' :: u := by
  induction L with
  | nil => cases hL rfl
  | cons w L ih =>
    cases L with
    | nil => rfl
    | cons v L' =>
      have hih := ih (by simp)
      show w ++ ' ' :: joinSpace ((v :: L') ++ [u]) = (w ++ ' ' :: joinSpace (v :: L')) ++ ' ' :: u
      rw [hih]
      simp [List.append_assoc]

theorem joinSpace_reverse (ws : List PyStr) :
    (joinSpace ws).reverse = joinSpace ((ws.reverse).map List.reverse) := by
  induction ws with
  | nil => rfl
  | cons w ws ih =>
    cases ws with
    | nil => simp [joinSpace]
    | cons v ws' =>
      show (w ++ ' ' :: joinSpace (v :: ws')).reverse = _
      rw [List.reverse_append, List.reverse_cons, ih]
      have h1 : (w :: v :: ws').reverse = (v :: ws').reverse ++ [w] := List.reverse_cons w _
      rw [h1, List.map_append]
      simp only [List.map_cons, List.map_nil]
      rw [joinSpace_snoc _ _ (by simp)]
      simp [List.append_assoc]

theorem dropWhile_joinSpace (ws : List PyStr)
    (hw : ∀ w ∈ ws, w ≠ [] ∧ ∀ c ∈ w, pyIsSpaceChar c = false) :
    (joinSpace ws).dropWhile pyIsSpaceChar = joinSpace ws := by
  cases ws with
  | nil => rfl
  | cons w ws =>
    obtain ⟨hne, hsp⟩ := hw w (List.mem_cons_self w ws)
    obtain ⟨c, t, rfl⟩ := List.exists_cons_of_ne_nil hne
    have hc : pyIsSpaceChar c = false := hsp c (List.mem_cons_self c t)
    cases ws with
    | nil =>
      show (c :: t).dropWhile pyIsSpaceChar = c :: t
      rw [List.dropWhile_cons]
      simp [hc]
    | cons v ws' =>
      show ((c :: t) ++ ' ' :: joinSpace (v :: ws')).dropWhile pyIsSpaceChar = _
      rw [List.cons_append, List.dropWhile_cons]
      simp [hc, joinSpace]

theorem pyStrip_joinSpace (ws : List PyStr)
    (hw : ∀ w ∈ ws, w ≠ [] ∧ ∀ c ∈ w, pyIsSpaceChar c = false) :
    pyStrip (joinSpace ws) = joinSpace ws := by
  have hrev : ∀ w ∈ (ws.reverse).map List.reverse,
      w ≠ [] ∧ ∀ c ∈ w, pyIsSpaceChar c = false := by
    intro w hw'
    obtain ⟨u, hu, rfl⟩ := List.mem_map.mp hw'
    obtain ⟨hne, hsp⟩ := hw u (List.mem_reverse.mp hu)
    exact ⟨by simpa using hne, fun c hc => hsp c (List.mem_reverse.mp hc)⟩
  unfold pyStrip
  rw [dropWhile_joinSpace ws hw, joinSpace_reverse, dropWhile_joinSpace _ hrev,
    ← joinSpace_reverse, List.reverse_reverse]

/-- Splitting the single-space join of nonempty space-free words recovers the
words. -/
theorem pySplit_joinSpace (ws : List PyStr)
    (hw : ∀ w ∈ ws, w ≠ [] ∧ ∀ c ∈ w, pyIsSpaceChar c = false) :
    pySplit (joinSpace ws) = ws := by
  induction ws with
  | nil => rfl
  | cons w ws ih =>
    obtain ⟨hne, hsp⟩ := hw w (List.mem_cons_self w ws)
    obtain ⟨c, t, rfl⟩ := List.exists_cons_of_ne_nil hne
    have hc : pyIsSpaceChar c = false := hsp c (List.mem_cons_self c t)
    have htw : ∀ d ∈ t, (fun x => !pyIsSpaceChar x) d = true := by
      intro d hd
      have := hsp d (List.mem_cons_of_mem c hd)
      simp [this]
    cases ws with
    | nil =>
      show pySplit (c :: t) = [c :: t]
      rw [pySplit_word t hc, takeWhile_all htw]
      have hdw : t.dropWhile (fun x => !pyIsSpaceChar x) = [] := by
        rw [List.dropWhile_eq_nil_iff]
        intro x hx
        exact htw x hx
      rw [hdw, pySplit_nil]
    | cons v ws' =>
      show pySplit ((c :: t) ++ ' ' :: joinSpace (v :: ws')) = (c :: t) :: v :: ws'
      rw [List.cons_append, pySplit_word _ hc,
        takeWhile_append_all _ htw, dropWhile_append_all _ htw]
      have h1 : List.takeWhile (fun x => !pyIsSpaceChar x) (' ' :: joinSpace (v :: ws')) = [] := by
        rw [List.takeWhile_cons]
        simp [pyIsSpaceChar]
      have h2 : List.dropWhile (fun x => !pyIsSpaceChar x) (' ' :: joinSpace (v :: ws')) =
          ' ' :: joinSpace (v :: ws') := by
        rw [List.dropWhile_cons]
        simp [pyIsSpaceChar]
      rw [h1, h2, List.append_nil, pySplit_space _ (by simp [pyIsSpaceChar]),
        ih fun u hu => hw u (List.mem_cons_of_mem _ hu)]

/-- C9: `normalize_name` is idempotent; its output is lower-cased (every
character is a fixed point of lower-casing), free of combining diacritical
marks, has internal whitespace collapsed to single spaces (the output equals
the single-space join of its whitespace-separated words) and carries no
leading or trailing whitespace; and `Île` normalizes to `ile`. -/
theorem C9_normalize_name :
    (∀ s : PyStr,
      normalize_name (normalize_name s) = normalize_name s ∧
      pyLower (normalize_name s) = normalize_name s ∧
      (∀ c ∈ normalize_name s, combiningChar c = false) ∧
      joinSpace (pySplit (normalize_name s)) = normalize_name s ∧
      pyStrip (normalize_name s) = normalize_name s) ∧
    normalize_name (pys "Île") = pys "ile" := by
  constructor
  · intro s
    have hws := pySplit_words (stripCombining (nfkdStr (pyLower (pyStrip s))))
    have hchar : ∀ c ∈ normalize_name s,
        pyLowerChar c = c ∧ nfkdChar c = [c] ∧ combiningChar c = false := by
      intro c hc
      rcases mem_joinSpace hc with rfl | ⟨w, hw, hcw⟩
      · exact ⟨by decide, by decide, by decide⟩
      · exact mem_normCore_fixed (pySplit_subset _ w hw c hcw)
    have h4 : joinSpace (pySplit (normalize_name s)) = normalize_name s := by
      show joinSpace (pySplit (joinSpace (pySplit _))) = _
      rw [pySplit_joinSpace _ hws]
      rfl
    have h5 : pyStrip (normalize_name s) = normalize_name s := pyStrip_joinSpace _ hws
    have h2 : pyLower (normalize_name s) = normalize_name s :=
      map_id_of fun c hc => (hchar c hc).1
    have h3 : ∀ c ∈ normalize_name s, combiningChar c = false :=
      fun c hc => (hchar c hc).2.2
    refine ⟨?_, h2, h3, h4, h5⟩
    have hnf : nfkdStr (normalize_name s) = normalize_name s :=
      flatMap_id_of fun c hc => (hchar c hc).2.1
    have hsc : stripCombining (normalize_name s) = normalize_name s :=
      filter_id_of fun c hc => by simp [(hchar c hc).2.2]
    show joinSpace (pySplit (stripCombining (nfkdStr (pyLower (pyStrip (normalize_name s)))))) =
      normalize_name s
    rw [h5, h2, hnf, hsc, h4]
  · decide

/-- Witness for `C9_normalize_name` at a concrete accented, badly spaced
name. -/
theorem C9_normalize_name_witness :
    normalize_name (normalize_name (pys "  Forêt   SACRÉE ")) =
      normalize_name (pys "  Forêt   SACRÉE ") :=
  (C9_normalize_name.1 (pys "  Forêt   SACRÉE ")).1

/-! ## Idempotency keys (src/backend/app/core/idempotency.py)

`IdempotencyKey.generate` feeds `json.dumps(key_data, sort_keys=True)` through
`hashlib.sha256` and keeps the first 16 hex digits.  `hashlib.sha256` is an
external primitive; it is modelled here by a full executable SHA-256 (FIPS
180-4) over byte lists.  Python floats do not shallow-embed, so a JSON number
is carried as the decimal text `json.dumps` renders it with. -/

/-- 2^32. -/
def M32 : Nat := 4294967296

def rotr32 (x n : Nat) : Nat := ((x % M32) >>> n) ||| ((x <<< (32 - n)) % M32)

def smallSigma0 (x : Nat) : Nat := rotr32 x 7 ^^^ rotr32 x 18 ^^^ (x >>> 3)

def smallSigma1 (x : Nat) : Nat := rotr32 x 17 ^^^ rotr32 x 19 ^^^ (x >>> 10)

def bigSigma0 (x : Nat) : Nat := rotr32 x 2 ^^^ rotr32 x 13 ^^^ rotr32 x 22

def bigSigma1 (x : Nat) : Nat := rotr32 x 6 ^^^ rotr32 x 11 ^^^ rotr32 x 25

/-- The SHA-256 round constants. -/
def sha256K : List Nat :=
  [1116352408, 1899447441, 3049323471, 3921009573, 961987163,
   1508970993, 2453635748, 2870763221, 3624381080, 310598401,
   607225278, 1426881987, 1925078388, 2162078206, 2614888103,
   3248222580, 3835390401, 4022224774, 264347078, 604807628,
   770255983, 1249150122, 1555081692, 1996064986, 2554220882,
   2821834349, 2952996808, 3210313671, 3336571891, 3584528711,
   113926993, 338241895, 666307205, 773529912, 1294757372,
   1396182291, 1695183700, 1986661051, 2177026350, 2456956037,
   2730485921, 2820302411, 3259730800, 3345764771, 3516065817,
   3600352804, 4094571909, 275423344, 430227734, 506948616,
   659060556, 883997877, 958139571, 1322822218, 1537002063,
   1747873779, 1955562222, 2024104815, 2227730452, 2361852424,
   2428436474, 2756734187, 3204031479, 3329325298]

/-- The SHA-256 initial hash value. -/
def sha256H0 : List Nat :=
  [1779033703, 3144134277, 1013904242, 2773480762,
   1359893119, 2600822924, 528734635, 1541459225]

/-- Big-endian bytes to 32-bit words. -/
def toWordsBE : List Nat → List Nat
  | b0 :: b1 :: b2 :: b3 :: rest =>
    ((b0 <<< 24) + (b1 <<< 16) + (b2 <<< 8) + b3) :: toWordsBE rest
  | _ => []

/-- Extend the 16 message-schedule words by `n` more. -/
def extendW : Nat → List Nat → List Nat
  | 0, w => w
  | n + 1, w =>
    let L := w.length
    let next := (smallSigma1 (w.getD (L - 2) 0) + w.getD (L - 7) 0 +
      smallSigma0 (w.getD (L - 15) 0) + w.getD (L - 16) 0) % M32
    extendW n (w ++ [next])

/-- One SHA-256 compression round on the working state `[a,…,h]`. -/
def compressRound (st : List Nat) (kw : Nat × Nat) : List Nat :=
  let a := st.getD 0 0
  let b := st.getD 1 0
  let c := st.getD 2 0
  let d := st.getD 3 0
  let e := st.getD 4 0
  let f := st.getD 5 0
  let g := st.getD 6 0
  let h := st.getD 7 0
  let t1 := (h + bigSigma1 e + ((e &&& f) ^^^ ((0xFFFFFFFF ^^^ e) &&& g)) + kw.1 + kw.2) % M32
  let t2 := (bigSigma0 a + ((a &&& b) ^^^ (a &&& c) ^^^ (b &&& c))) % M32
  [(t1 + t2) % M32, a, b, c, (d + t1) % M32, e, f, g]

/-- Process one 64-byte chunk. -/
def processChunk (hs : List Nat) (chunk : List Nat) : List Nat :=
  let w := extendW 48 (toWordsBE chunk)
  let st := (sha256K.zip w).foldl compressRound hs
  [(hs.getD 0 0 + st.getD 0 0) % M32, (hs.getD 1 0 + st.getD 1 0) % M32,
   (hs.getD 2 0 + st.getD 2 0) % M32, (hs.getD 3 0 + st.getD 3 0) % M32,
   (hs.getD 4 0 + st.getD 4 0) % M32, (hs.getD 5 0 + st.getD 5 0) % M32,
   (hs.getD 6 0 + st.getD 6 0) % M32, (hs.getD 7 0 + st.getD 7 0) % M32]

/-- Big-endian 8-byte encoding of the bit length. -/
def lenBytesBE (n : Nat) : List Nat :=
  [(n >>> 56) % 256, (n >>> 48) % 256, (n >>> 40) % 256, (n >>> 32) % 256,
   (n >>> 24) % 256, (n >>> 16) % 256, (n >>> 8) % 256, n % 256]

/-- SHA-256 padding: `0x80`, zeros to 56 mod 64, 64-bit big-endian bit
length. -/
def sha256pad (msg : List Nat) : List Nat :=
  let len := msg.length
  msg ++ [0x80] ++ List.replicate ((119 - len % 64) % 64) 0 ++ lenBytesBE (8 * len)

/-- Split into 64-byte chunks (fuel-indexed so the recursion is structural). -/
def chunks64 : Nat → List Nat → List (List Nat)
  | 0, _ => []
  | fuel + 1, l => if l.isEmpty then [] else l.take 64 :: chunks64 fuel (l.drop 64)

def wordBytesBE (w : Nat) : List Nat :=
  [(w >>> 24) % 256, (w >>> 16) % 256, (w >>> 8) % 256, w % 256]

/-- SHA-256 digest (32 bytes) of a byte list. -/
def sha256 (msg : List Nat) : List Nat :=
  let padded := sha256pad msg
  ((chunks64 padded.length padded).foldl processChunk sha256H0).flatMap wordBytesBE

def hexChar (n : Nat) : Char :=
  if n < 10 then Char.ofNat (48 + n) else Char.ofNat (87 + n)

/-- Two lowercase hex digits of a byte. -/
def hexByte (b : Nat) : PyStr := [hexChar ((b / 16) % 16), hexChar (b % 16)]

/-- `hashlib.sha256(...).hexdigest()`: lowercase hex of the digest bytes. -/
def hexdigest (bytes : List Nat) : PyStr := bytes.flatMap hexByte

/-- UTF-8 encoding of one code point (`str.encode()`). -/
def utf8Char (c : Char) : List Nat :=
  let n := c.toNat
  if n < 0x80 then [n]
  else if n < 0x800 then [0xC0 + n / 64, 0x80 + n % 64]
  else if n < 0x10000 then [0xE0 + n / 4096, 0x80 + (n / 64) % 64, 0x80 + n % 64]
  else [0xF0 + n / 262144, 0x80 + (n / 4096) % 64, 0x80 + (n / 64) % 64, 0x80 + n % 64]

def utf8Encode (s : PyStr) : List Nat := s.flatMap utf8Char

/-- A JSON scalar as `json.dumps` sees it; a number is carried as the decimal
text it is rendered with (Python float serialization does not shallow-embed,
its output text does). -/
inductive JPrim where
  | jstr (s : PyStr)
  | jnum (r : PyStr)
  | jbool (b : Bool)
deriving DecidableEq, Repr

def hex4 (n : Nat) : PyStr :=
  [hexChar ((n / 4096) % 16), hexChar ((n / 256) % 16), hexChar ((n / 16) % 16),
   hexChar (n % 16)]

/-- `json.dumps` escaping for one character (default `ensure_ascii=True`,
BMP code points). -/
def jsonEscapeChar (c : Char) : PyStr :=
  if c = Char.ofNat 34 then [Char.ofNat 92, Char.ofNat 34]
  else if c = Char.ofNat 92 then [Char.ofNat 92, Char.ofNat 92]
  else if c = '\n' then [Char.ofNat 92, 'n']
  else if c = '\t' then [Char.ofNat 92, 't']
  else if c = '\r' then [Char.ofNat 92, 'r']
  else if c = Char.ofNat 8 then [Char.ofNat 92, 'b']
  else if c = Char.ofNat 12 then [Char.ofNat 92, 'f']
  else if c.toNat < 32 ∨ 127 ≤ c.toNat then Char.ofNat 92 :: 'u' :: hex4 c.toNat
  else [c]

/-- A JSON string literal with quotes. -/
def jsonStr (s : PyStr) : PyStr :=
  Char.ofNat 34 :: s.flatMap jsonEscapeChar ++ [Char.ofNat 34]

def dumpPrim : JPrim → PyStr
  | .jstr s => jsonStr s
  | .jnum r => r
  | .jbool true => pys "true"
  | .jbool false => pys "false"

/-- Python string `<` (code-point lexicographic), used by `sort_keys=True`. -/
def pyStrLt : PyStr → PyStr → Bool
  | [], [] => false
  | [], _ :: _ => true
  | _ :: _, [] => false
  | c :: a, d :: b =>
    if c.toNat < d.toNat then true
    else if d.toNat < c.toNat then false
    else pyStrLt a b

def insertByKey (p : PyStr × JPrim) : List (PyStr × JPrim) → List (PyStr × JPrim)
  | [] => [p]
  | q :: rest => if pyStrLt q.1 p.1 then q :: insertByKey p rest else p :: q :: rest

def sortByKey (l : List (PyStr × JPrim)) : List (PyStr × JPrim) :=
  l.foldr insertByKey []

/-- Join with the default `json.dumps` item separator `", "`. -/
def joinCommaSep : List PyStr → PyStr
  | [] => []
  | [x] => x
  | x :: xs => x ++ pys ", " ++ joinCommaSep xs

/-- `json.dumps` of a flat dict with `sort_keys=True` (default separators:
`", "` between items, `": "` after keys). -/
def dumpFlatObj (d : List (PyStr × JPrim)) : PyStr :=
  Char.ofNat 123 :: joinCommaSep
    ((sortByKey d).map fun p => jsonStr p.1 ++ pys ": " ++ dumpPrim p.2)
    ++ [Char.ofNat 125]

/-- `json.dumps(key_data, sort_keys=True)` for the `key_data` dict of
`IdempotencyKey.generate` (idempotency.py lines 61–70); its five literal keys
sort to `config, image, lang, pipeline, scryfall`. -/
def keyDataJson (image pipeline scryfall lang : PyStr)
    (config : List (PyStr × JPrim)) : PyStr :=
  Char.ofNat 123 ::
    (jsonStr (pys "config") ++ pys ": " ++ dumpFlatObj config ++ pys ", "
      ++ jsonStr (pys "image") ++ pys ": " ++ jsonStr image ++ pys ", "
      ++ jsonStr (pys "lang") ++ pys ": " ++ jsonStr lang ++ pys ", "
      ++ jsonStr (pys "pipeline") ++ pys ": " ++ jsonStr pipeline ++ pys ", "
      ++ jsonStr (pys "scryfall") ++ pys ": " ++ jsonStr scryfall)
    ++ [Char.ofNat 125]

/-- The three settings the default OCR config reads (idempotency.py lines
48–54); the two numeric settings are carried as their JSON number text. -/
structure IdemSettings where
  OCR_MIN_CONF : PyStr
  OCR_MIN_LINES : PyStr
  ENABLE_VISION_FALLBACK : Bool
deriving DecidableEq, Repr

/-- The default `ocr_config` built when the argument is `None`. -/
def defaultOcrConfig (st : IdemSettings) : List (PyStr × JPrim) :=
  [(pys "min_conf", JPrim.jnum st.OCR_MIN_CONF),
   (pys "min_lines", JPrim.jnum st.OCR_MIN_LINES),
   (pys "vision_enabled", JPrim.jbool st.ENABLE_VISION_FALLBACK),
   (pys "preprocessing", JPrim.jstr (pys "4-variant"))]

/-- `IdempotencyKey.generate` (idempotency.py lines 27–73): default the config
from settings and the snapshot from today's UTC date, build the sorted-key
JSON, hash it with SHA-256, and keep `idem:` plus the first 16 hex digits. -/
def generate (st : IdemSettings) (image_hash : PyStr) (pipeline_version : PyStr)
    (scryfall_snapshot : Option PyStr) (ocr_config : Option (List (PyStr × JPrim)))
    (language : PyStr) (todayUTC : PyStr) : PyStr :=
  let cfg := ocr_config.getD (defaultOcrConfig st)
  let snap := scryfall_snapshot.getD todayUTC
  pys "idem:" ++
    (hexdigest (sha256 (utf8Encode
      (keyDataJson image_hash pipeline_version snap language cfg)))).take 16

def isHexDigitChar (c : Char) : Bool :=
  (48 ≤ c.toNat && c.toNat ≤ 57) || (97 ≤ c.toNat && c.toNat ≤ 102)

theorem foldl_processChunk_length (chunks : List (List Nat)) :
    ∀ hs : List Nat, hs.length = 8 → (chunks.foldl processChunk hs).length = 8 := by
  induction chunks with
  | nil => intro hs h; exact h
  | cons c rest ih =>
    intro hs _
    exact ih (processChunk hs c) (by simp [processChunk])

theorem flatMap_wordBytes_length (l : List Nat) :
    (l.flatMap wordBytesBE).length = 4 * l.length := by
  induction l with
  | nil => rfl
  | cons w rest ih =>
    rw [List.flatMap_cons, List.length_append, ih]
    simp [wordBytesBE]
    omega

theorem sha256_length (msg : List Nat) : (sha256 msg).length = 32 := by
  unfold sha256
  rw [flatMap_wordBytes_length, foldl_processChunk_length _ sha256H0 (by rfl)]

theorem hexdigest_length (bytes : List Nat) :
    (hexdigest bytes).length = 2 * bytes.length := by
  induction bytes with
  | nil => rfl
  | cons b rest ih =>
    show (hexByte b ++ hexdigest rest).length = 2 * (b :: rest).length
    rw [List.length_append, ih]
    simp [hexByte]
    omega

theorem hexdigest_hex (bytes : List Nat) :
    ∀ c ∈ hexdigest bytes, isHexDigitChar c = true := by
  intro c hc
  obtain ⟨b, _, hcb⟩ := List.mem_flatMap.mp hc
  have hsmall : ∀ n < 16, isHexDigitChar (hexChar n) = true := by decide
  rcases List.mem_cons.mp hcb with rfl | hcb
  · exact hsmall _ (Nat.mod_lt _ (by omega))
  · rcases List.mem_cons.mp hcb with rfl | hcb
    · exact hsmall _ (Nat.mod_lt _ (by omega))
    · cases hcb

/-- C1: the idempotency key is deterministic.  With the catalogue snapshot tag
supplied (it is part of the pipeline configuration), the key does not depend
on the wall-clock date; it equals `idem:` plus the first 16 digits of the
SHA-256 hex digest of the canonical sorted-key JSON of
(fingerprint, pipeline version, snapshot, config, language); the suffix is 16
lowercase hex characters; and any two argument tuples with the same canonical
JSON yield the same key, at any two times. -/
theorem C1_idempotency_key_deterministic (st : IdemSettings)
    (image_hash ver snap lang : PyStr) (cfg : Option (List (PyStr × JPrim)))
    (t1 t2 : PyStr) :
    generate st image_hash ver (some snap) cfg lang t1 =
        generate st image_hash ver (some snap) cfg lang t2 ∧
      generate st image_hash ver (some snap) cfg lang t1 =
        pys "idem:" ++ (hexdigest (sha256 (utf8Encode
          (keyDataJson image_hash ver snap lang (cfg.getD (defaultOcrConfig st)))))).take 16 ∧
      ((generate st image_hash ver (some snap) cfg lang t1).drop 5).length = 16 ∧
      (∀ c ∈ (generate st image_hash ver (some snap) cfg lang t1).drop 5,
        isHexDigitChar c = true) ∧
      ∀ (st2 : IdemSettings) (h2 v2 s2 l2 t3 : PyStr)
        (cfg2 : Option (List (PyStr × JPrim))),
        keyDataJson image_hash ver snap lang (cfg.getD (defaultOcrConfig st)) =
          keyDataJson h2 v2 s2 l2 (cfg2.getD (defaultOcrConfig st2)) →
        generate st image_hash ver (some snap) cfg lang t1 =
          generate st2 h2 v2 (some s2) cfg2 l2 t3 := by
  have hk : generate st image_hash ver (some snap) cfg lang t1 =
      pys "idem:" ++ (hexdigest (sha256 (utf8Encode
        (keyDataJson image_hash ver snap lang (cfg.getD (defaultOcrConfig st)))))).take 16 := rfl
  have hlen64 : (hexdigest (sha256 (utf8Encode (keyDataJson image_hash ver snap lang
      (cfg.getD (defaultOcrConfig st)))))).length = 64 := by
    rw [hexdigest_length, sha256_length]
  have hdrop : (generate st image_hash ver (some snap) cfg lang t1).drop 5 =
      (hexdigest (sha256 (utf8Encode (keyDataJson image_hash ver snap lang
        (cfg.getD (defaultOcrConfig st)))))).take 16 := by
    rw [hk]
    have h5 : (pys "idem:").length = 5 := rfl
    rw [← h5, List.drop_left]
  refine ⟨rfl, hk, ?_, ?_, ?_⟩
  · rw [hdrop, List.length_take, hlen64]
    rfl
  · intro c hc
    rw [hdrop] at hc
    exact hexdigest_hex _ c (List.mem_of_mem_take hc)
  · intro st2 h2 v2 s2 l2 t3 cfg2 heq
    show pys "idem:" ++ (hexdigest (sha256 (utf8Encode
        (keyDataJson image_hash ver snap lang (cfg.getD (defaultOcrConfig st)))))).take 16 =
      pys "idem:" ++ (hexdigest (sha256 (utf8Encode
        (keyDataJson h2 v2 s2 l2 (cfg2.getD (defaultOcrConfig st2)))))).take 16
    rw [heq]

/-- The settings values of the default deployment (config.py: OCR_MIN_CONF
0.62, OCR_MIN_LINES 10, ENABLE_VISION_FALLBACK false), with the numbers as
their JSON text. -/
def idemSettingsFixture : IdemSettings := ⟨pys "0.62", pys "10", false⟩

/-- Witness for `C1_idempotency_key_deterministic`: a concrete fingerprint and
config give the same key on two different days. -/
theorem C1_idempotency_key_deterministic_witness :
    generate idemSettingsFixture (pys "abc123") (pys "v2.0.0") (some (pys "2025-01-01"))
        none (pys "en") (pys "2025-06-01") =
      generate idemSettingsFixture (pys "abc123") (pys "v2.0.0") (some (pys "2025-01-01"))
        none (pys "en") (pys "2099-12-31") :=
  (C1_idempotency_key_deterministic idemSettingsFixture (pys "abc123") (pys "v2.0.0")
    (pys "2025-01-01") (pys "en") none (pys "2025-06-01")
    (pys "2099-12-31")).2.2.2.2 idemSettingsFixture (pys "abc123") (pys "v2.0.0")
    (pys "2025-01-01") (pys "en") (pys "2099-12-31") none rfl

end Screen2Deck
